import Mathlib

/-!
Verification development for the noria client write path (`api/src/mutator.rs`)
and the per-operator materialized state engine (`core/src/local/state.rs`).

Rows are ordered lists of values of an abstract value type `T` (the source's
`DataType` is opaque to the core).  The source shares rows between indices via
`Rc`; in this pure model rows are plain values, which preserves all observable
behaviour of the operations modelled here.
-/

namespace Noria

/-- A row: an ordered sequence of values (`Vec<T>` in the source). -/
abbrev Row (T : Type) := List T

/-- A replay tag (`Tag` in the source; opaque identifier). -/
abbrev Tag := Nat

/-- `usize::MAX` on the 64-bit targets the source is built for; `rows` is a
`usize` updated with `saturating_add`/`saturating_sub`. -/
def usizeMax : Nat := 2 ^ 64 - 1

/-- Modelled from the spec: `KeyedState` (`core/src/local/keyed_state.rs` is
not part of the sources given).  The six fixed-arity variants
(Single/Double/Tri/Quad/Quin/Sex) are collapsed into a single unordered map
from a key tuple (here: a list whose length is the index arity) to a bucket of
rows; per the spec the map supports `lookup`, `insert` (replacing and
returning any prior bucket), `remove`, `values`, `is_empty` and `len`.
The map is modelled as an association list with first-match lookup. -/
abbrev KS (T : Type) := List (Row T × List (Row T))

/-- Map lookup (`HashMap::get`): first binding whose key equals `k`. -/
def ksLookup {T : Type} [DecidableEq T] (m : KS T) (k : Row T) : Option (List (Row T)) :=
  match m with
  | [] => none
  | (k', v) :: rest => if k' = k then some v else ksLookup rest k

/-- Map insert (`HashMap::insert`): replaces any existing binding, returning
the prior bucket; a fresh key is appended. -/
def ksInsert {T : Type} [DecidableEq T] (m : KS T) (k : Row T) (v : List (Row T)) :
    KS T × Option (List (Row T)) :=
  match m with
  | [] => ([(k, v)], none)
  | (k', v') :: rest =>
    if k' = k then ((k, v) :: rest, some v')
    else
      let r := ksInsert rest k v
      ((k', v') :: r.1, r.2)

/-- Map remove (`HashMap::remove`): removes the binding for `k`, returning the
removed bucket. -/
def ksRemove {T : Type} [DecidableEq T] (m : KS T) (k : Row T) :
    KS T × Option (List (Row T)) :=
  match m with
  | [] => ([], none)
  | (k', v') :: rest =>
    if k' = k then (rest, some v')
    else
      let r := ksRemove rest k
      ((k', v') :: r.1, r.2)

/-- In-place update of the bucket stored at `k` (the source obtains the bucket
with `get_mut` and mutates it). -/
def ksModify {T : Type} [DecidableEq T] (m : KS T) (k : Row T)
    (f : List (Row T) → List (Row T)) : KS T :=
  match m with
  | [] => []
  | (k', v) :: rest => if k' = k then (k', f v) :: rest else (k', v) :: ksModify rest k f

/-- All rows held by a keyed map: concatenation of its buckets
(`map.values()` flattened). -/
def ksRows {T : Type} (m : KS T) : List (Row T) :=
  (m.map Prod.snd).flatten

/-- One index of an operator's state (`SingleState` in the source): the key
column list, the keyed map, and the partial-materialization flag
(source field `partial`, a Rust keyword Lean cannot reuse, here `isPart`). -/
structure SingleState (T : Type) where
  key : List Nat
  state : KS T
  isPart : Bool
deriving Repr, DecidableEq

/-- The materialized state of one operator (`State` in the source). -/
structure State (T : Type) where
  state : List (SingleState T)
  by_tag : List (Tag × Nat)
  rows : Nat
deriving Repr, DecidableEq

/-- `State::default` / `State::base`. -/
def State.base (T : Type) : State T := ⟨[], [], 0⟩

/-- `self.by_tag.get(&tag)` (`HashMap` lookup, modelled as first match of an
association list; `by_tag` never holds duplicate tags). -/
def tagLookup (bt : List (Tag × Nat)) (t : Tag) : Option Nat :=
  match bt with
  | [] => none
  | (t', i) :: rest => if t' = t then some i else tagLookup rest t

/-- `self.by_tag.insert(tag, i)`. -/
def tagInsert (bt : List (Tag × Nat)) (t : Tag) (i : Nat) : List (Tag × Nat) :=
  match bt with
  | [] => [(t, i)]
  | (t', i') :: rest => if t' = t then (t, i) :: rest else (t', i') :: tagInsert rest t i

/-- The key of row `r` under an index keyed by `key`: the tuple
`(r[key[0]], r[key[1]], ...)` built by every `KeyedState` arm of the source
(indexing a `Vec` out of range is a panic and unreachable under the State
contract; the model totalizes it with a default value). -/
def proj {T : Type} [Inhabited T] (key : List Nat) (r : Row T) : Row T :=
  key.map fun c => r.getD c default

/-- `State::state_for`: position of the first index keyed by exactly `cols`. -/
def State.state_for {T : Type} (s : State T) (cols : List Nat) : Option Nat :=
  go s.state 0
where
  go : List (SingleState T) → Nat → Option Nat
    | [], _ => none
    | ss :: rest, i => if ss.key = cols then some i else go rest (i + 1)

/-- `State::insert_into`: conditional insert of `r` into one index.  An
occupied key pushes onto the bucket; a vacant key on a partial index rejects
the row (returning `false`); a vacant key on a full index creates the
`[r]` bucket. -/
def insert_into {T : Type} [DecidableEq T] [Inhabited T] (s : SingleState T) (r : Row T) :
    SingleState T × Bool :=
  let k := proj s.key r
  match ksLookup s.state k with
  | some _ => ({ s with state := ksModify s.state k (fun rs => rs ++ [r]) }, true)
  | none =>
    if s.isPart then (s, false)
    else ({ s with state := (ksInsert s.state k [r]).1 }, true)

/-- `State::is_empty`: no index, or the first index's map has no keys. -/
def State.is_empty {T : Type} (s : State T) : Bool :=
  match s.state with
  | [] => true
  | ss :: _ => ss.state.isEmpty

/-- `State::is_useful`. -/
def State.is_useful {T : Type} (s : State T) : Bool :=
  !s.state.isEmpty

/-- `State::is_partial`. -/
def State.is_partial {T : Type} (s : State T) : Bool :=
  s.state.any fun ss => ss.isPart

/-- `State::len` (the `rows` counter). -/
def State.len {T : Type} (s : State T) : Nat := s.rows

/-- `State::nkeys`. -/
def State.nkeys {T : Type} (s : State T) : Nat :=
  match s.state with
  | [] => 0
  | ss :: _ => ss.state.length

/-- `State::keys`. -/
def State.keys {T : Type} (s : State T) : List (List Nat) :=
  s.state.map fun ss => ss.key

/-- The backfill loop of `State::add_key`: insert every given row into the
index in turn. -/
def insertAll {T : Type} [DecidableEq T] [Inhabited T] (idx : SingleState T)
    (rs : List (Row T)) : SingleState T :=
  rs.foldl (fun i r => (insert_into i r).1) idx

/-- `State::add_key`.  Registers tags, pushes a new index when none is keyed
by `columns` yet, and backfills a new non-partial index from the first
existing one when the state is non-empty. -/
def State.add_key {T : Type} [DecidableEq T] [Inhabited T] (s : State T)
    (columns : List Nat) (part : Option (List Tag)) : State T :=
  let exi := s.state_for columns
  let i := exi.getD s.state.length
  let is_p := part.isSome
  let bt := match part with
    | some p => p.foldl (fun b tg => tagInsert b tg i) s.by_tag
    | none => s.by_tag
  let s1 : State T := { s with by_tag := bt }
  if exi.isSome then s1
  else
    let fresh : SingleState T := ⟨columns, [], is_p⟩
    let pushed : State T := { s1 with state := s1.state ++ [fresh] }
    if pushed.is_empty then pushed
    else if is_p then pushed
    else
      match s1.state with
      | [] => pushed
      | first :: _ =>
        let filled := insertAll fresh (ksRows first.state)
        { s1 with state := s1.state ++ [filled] }

/-- `State::insert`.  A tagged insert goes only to the tag's index (an unknown
tag is a successful no-op) and leaves `rows` alone; an untagged insert bumps
`rows` (saturating) and tries every index, OR-ing the per-index outcomes into
an accumulator that the source initializes to `true`.
(`self.state[i]` on a stale tag entry would panic; `by_tag` only ever holds
indices of existing states, and the model totalizes the access.)
`insertStep` is the body of the untagged loop. -/
def insertStep {T : Type} [DecidableEq T] [Inhabited T] (r : Row T)
    (acc : List (SingleState T) × Bool) (idx : SingleState T) :
    List (SingleState T) × Bool :=
  let res := insert_into idx r
  (acc.1 ++ [res.1], res.2 || acc.2)

/-- `State::insert` (see `insertStep` above for the loop body). -/
def State.insert {T : Type} [DecidableEq T] [Inhabited T] (s : State T) (r : Row T)
    (partial_tag : Option Tag) : State T × Bool :=
  match partial_tag with
  | some tag =>
    match tagLookup s.by_tag tag with
    | none => (s, true)
    | some i =>
      let idx := s.state.getD i ⟨[], [], false⟩
      let res := insert_into idx r
      ({ s with state := s.state.set i res.1 }, res.2)
  | none =>
    let step := s.state.foldl (insertStep r) ([], true)
    ({ s with state := step.1, rows := min (s.rows + 1) usizeMax }, step.2)

/-- `Vec::swap_remove`: replace the element at `i` by the last element and
shrink by one. -/
def swapRemove {α : Type} (l : List α) (i : Nat) : List α :=
  match l.getLast? with
  | none => l
  | some a => (l.set i a).dropLast

/-- One iteration of `State::remove`'s loop over the indices: look the row's
key up, and if a bucket exists, `fix` removes the first row equal to `r` by
swap-remove.  Returns (index', hit-this-index, removed-from-this-index). -/
def removeFromIndex {T : Type} [DecidableEq T] [Inhabited T] (idx : SingleState T)
    (r : Row T) : SingleState T × Bool × Bool :=
  let k := proj idx.key r
  match ksLookup idx.state k with
  | none => (idx, false, false)
  | some rs =>
    match rs.findIdx? (fun row => row = r) with
    | none => (idx, true, false)
    | some i =>
      ({ idx with state := ksModify idx.state k (fun b => swapRemove b i) }, true, true)

/-- The loop body of `State::remove`. -/
def removeStep {T : Type} [DecidableEq T] [Inhabited T] (r : Row T)
    (acc : List (SingleState T) × Bool × Bool) (idx : SingleState T) :
    List (SingleState T) × Bool × Bool :=
  let res := removeFromIndex idx r
  (acc.1 ++ [res.1], acc.2.1 || res.2.1, acc.2.2 || res.2.2)

/-- `State::remove`: run the per-index removal over every index; decrement
`rows` (saturating) once when any index actually removed the row; return the
`hit` flag. -/
def State.remove {T : Type} [DecidableEq T] [Inhabited T] (s : State T) (r : Row T) :
    State T × Bool :=
  let step := s.state.foldl (removeStep r) ([], false, false)
  let rows' := if step.2.2 then s.rows - 1 else s.rows
  ({ s with state := step.1, rows := rows' }, step.2.1)

/-- `State::mark_filled`: resolve the tag, insert an empty bucket at the key
(the key iterator yields the index's arity; a shorter key panics), and assert
that no bucket was replaced.  `none` models the panics. -/
def State.mark_filled {T : Type} [DecidableEq T] (s : State T) (key : Row T) (tag : Tag) :
    Option (State T) :=
  match tagLookup s.by_tag tag with
  | none => none
  | some i =>
    match s.state[i]? with
    | none => none
    | some idx =>
      if idx.key.length ≤ key.length then
        let r := ksInsert idx.state (key.take idx.key.length) []
        if r.2.isSome then none
        else some { s with state := s.state.set i { idx with state := r.1 } }
      else none

/-- `State::mark_hole`: resolve the tag, remove the bucket at the key (the
key is indexed up to the arity; a shorter key panics), and assert a bucket
was removed.  `none` models the panics. -/
def State.mark_hole {T : Type} [DecidableEq T] (s : State T) (key : Row T) (tag : Tag) :
    Option (State T) :=
  match tagLookup s.by_tag tag with
  | none => none
  | some i =>
    match s.state[i]? with
    | none => none
    | some idx =>
      if idx.key.length ≤ key.length then
        let r := ksRemove idx.state (key.take idx.key.length)
        if r.2.isNone then none
        else some { s with state := s.state.set i { idx with state := r.1 } }
      else none

/-- `LookupResult` of the source: `Some(rows)` or `Missing`. -/
inductive LookupResult (T : Type) where
  | found (rs : List (Row T))
  | missing
deriving Repr, DecidableEq

/-- `State::lookup`: find the index keyed by `columns` (a non-indexed column
set panics, modelled by `none`), query its map (a key whose arity differs
from the index's variant is unreachable in `KeyedState::lookup`, also
`none`); a present bucket is `Some`, an absent key is `Missing` on a partial
index and `Some(&[])` otherwise. -/
def State.lookup {T : Type} [DecidableEq T] (s : State T) (columns : List Nat)
    (key : Row T) : Option (LookupResult T) :=
  match s.state_for columns with
  | none => none
  | some j =>
    match s.state[j]? with
    | none => none
    | some idx =>
      if key.length = idx.key.length then
        match ksLookup idx.state key with
        | some rs => some (.found rs)
        | none => if idx.isPart then some .missing else some (.found [])
      else none

/-- The `hit` flag of `State::remove` over the whole index list. -/
def hitsKey {T : Type} [DecidableEq T] [Inhabited T] (s : State T) (r : Row T) : Bool :=
  s.state.any fun idx => (removeFromIndex idx r).2.1

/-- The `removed` flag of `State::remove` over the whole index list. -/
def removesRow {T : Type} [DecidableEq T] [Inhabited T] (s : State T) (r : Row T) : Bool :=
  s.state.any fun idx => (removeFromIndex idx r).2.2

/-! ### C8 -/

/-- An externally driven insert/remove event on a `State`. -/
inductive Op (T : Type) where
  | ins (r : Row T) (tag : Option Tag)
  | rem (r : Row T)

/-- Dispatch one event. -/
def applyOp {T : Type} [DecidableEq T] [Inhabited T] (s : State T) : Op T → State T
  | .ins r tg => (s.insert r tg).1
  | .rem r => (s.remove r).1

/-- Dispatch a sequence of events. -/
def applyOps {T : Type} [DecidableEq T] [Inhabited T] (s : State T)
    (ops : List (Op T)) : State T :=
  ops.foldl applyOp s

/-- The row-count bookkeeping of a sequence of events, stated independently of
the `rows` field updates: an untagged insert saturating-adds one, a tagged
insert changes nothing, a remove saturating-subtracts one exactly when some
bucket at the row's key holds the row. -/
def rowCount {T : Type} [DecidableEq T] [Inhabited T] (s : State T) (c : Nat) :
    List (Op T) → Nat
  | [] => c
  | op :: ops =>
    rowCount (applyOp s op)
      (match op with
       | .ins _ none => min (c + 1) usizeMax
       | .ins _ (some _) => c
       | .rem r => if removesRow s r then c - 1 else c) ops

/-! ### The base-table writer (`api/src/mutator.rs`)

The wire types (`BaseOperation`, `Modification`, `Input`, `Link`) and
`shard_by` live in the `basics` and `channel` crates, which are not among the
sources given; they are modelled from the spec.  The network is modelled as
the list of `(shard, Input)` frames written, in order; a `none` result models
a panic (`unreachable!` / `unimplemented!`). -/

/-- Modelled from the spec: per-column `Modification` — `None` (leave as-is,
constructor `Modification.none` here), `Set(value)`, or an arithmetic delta
variant. -/
inductive Modification (T : Type) where
  | none
  | set (v : T)
  | delta (v : T)
deriving Repr, DecidableEq

/-- Modelled from the spec: the `BaseOperation` wire variants. -/
inductive BaseOperation (T : Type) where
  | Insert (row : Row T)
  | Delete (key : Row T)
  | Update (key : Row T) (set : List (Modification T))
  | InsertOrUpdate (row : Row T) (update : List (Modification T))
deriving Repr, DecidableEq

/-- Modelled from the spec: `BaseOperation::row()` — the row carried by an
`Insert` or `InsertOrUpdate`, used by the validation in `put`/`batch_put`. -/
def BaseOperation.row {T : Type} : BaseOperation T → Option (Row T)
  | .Insert r => some r
  | .InsertOrUpdate r _ => some r
  | _ => none

/-- Modelled from the spec: a `Link` is the `(from, to)` node pair. -/
abbrev Link := Nat × Nat

/-- Modelled from the spec: the `Input` envelope. -/
structure Input (T : Type) where
  link : Link
  data : List (BaseOperation T)
deriving Repr, DecidableEq

/-- `MutatorError` of the source. -/
inductive MutatorError where
  | WrongColumnCount (expected got : Nat)
  | WrongKeyColumnCount (expected got : Nat)
  | TransactionFailed
deriving Repr, DecidableEq

/-- `BatchSendHandle`: per-shard sent counters over a `DomainInputHandle`
with `nshards` connections; `log` is the network model (frames written, in
order). -/
structure BatchSendHandle (T : Type) where
  nshards : Nat
  sent : List Nat
  log : List (Nat × Input T)
deriving Repr, DecidableEq

/-- `BatchSendHandle::new`: `sent = vec![0; dih.txs.len()]`. -/
def BatchSendHandle.new {T : Type} (n : Nat) : BatchSendHandle T :=
  ⟨n, List.replicate n 0, []⟩

/-- The sharding key value of one operation in `BatchSendHandle::enqueue`:
`Insert`/`InsertOrUpdate` use `row[key_col]`, `Delete`/`Update` use `key[0]`
(out-of-range indexing panics in the source; totalized with a default). -/
def opKeyVal {T : Type} [Inhabited T] (key_col : Nat) : BaseOperation T → T
  | .Insert r => r.getD key_col default
  | .Delete k => k.getD 0 default
  | .Update k _ => k.getD 0 default
  | .InsertOrUpdate r _ => r.getD key_col default

/-- `self.sent[s] += 1`. -/
def bump (sent : List Nat) (s : Nat) : List Nat :=
  sent.set s (sent.getD s 0 + 1)

/-- `BatchSendHandle::enqueue`.  One shard: ship the whole Input to shard 0.
Several shards: an empty key is `unreachable!`, a composite key is
`unimplemented!` (both `none`); otherwise partition the operations by
`shard_by` (passed in as `sb`, modelled from the spec as an arbitrary stable
partition of the value domain) and write one Input per non-empty bucket,
keeping the original link and bumping that shard's sent counter.
`shardBucket` is the partition loop (`shard_writes[shard].push(r)`): the
operations, in order, whose key value shards to `s`. -/
def shardBucket {T : Type} [DecidableEq T] [Inhabited T] (sb : T → Nat → Nat)
    (key_col n : Nat) (data : List (BaseOperation T)) (s : Nat) :
    List (BaseOperation T) :=
  data.filter (fun r => decide (sb (opKeyVal key_col r) n = s))

/-- `BatchSendHandle::enqueue` (see the comment above). -/
def enqueue {T : Type} [DecidableEq T] [Inhabited T] (sb : T → Nat → Nat)
    (h : BatchSendHandle T) (i : Input T) (key : List Nat) :
    Option (BatchSendHandle T) :=
  if h.nshards = 1 then
    some { h with sent := bump h.sent 0, log := h.log ++ [(0, i)] }
  else
    match key with
    | [] => none
    | [key_col] =>
      let n := h.nshards
      let bucket := shardBucket sb key_col n i.data
      let sends := (List.range n).filterMap (fun s =>
        if (bucket s).isEmpty then Option.none
        else some (s, ({ link := i.link, data := bucket s } : Input T)))
      let sent' := (List.range n).foldl
        (fun acc s => if (bucket s).isEmpty then acc else bump acc s) h.sent
      some { h with sent := sent', log := h.log ++ sends }
    | _ => none

/-! #### Dropped-column compensation (`Mutator::inject_dropped_cols`)

The source widens each carried row in place: it `reserve`s and `set_len`s the
row to its final arity (exposing an uninitialized tail, modelled as `none`
entries), then walks the dropped columns in reverse position order, shifting
the trailing unmoved elements into the free slots with `swap` until the free
slot is the declared position, where the default is written. -/

/-- `Vec::swap` (out-of-range indices panic in the source; totalized). -/
def oswap {T : Type} (l : List (Option T)) (a b : Nat) : List (Option T) :=
  (l.set a (l.getD b none)).set b (l.getD a none)

/-- The inner `while free > next_insert` loop: swap the last unmoved element
into the free slot, stepping both down, breaking when the unmoved cursor
reaches zero.  (Structurally recursive on `free`, which the loop strictly
decreases.) -/
def shiftWhile {T : Type} : Nat → List (Option T) → Nat → Nat →
    List (Option T) × Nat × Nat
  | 0, r, last_unmoved, _ => (r, 0, last_unmoved)
  | free + 1, r, last_unmoved, next_insert =>
    if next_insert < free + 1 then
      let r' := oswap r last_unmoved (free + 1)
      if last_unmoved = 0 then (r', free, last_unmoved)
      else shiftWhile free r' (last_unmoved - 1) next_insert
    else (r, free + 1, last_unmoved)

/-- The outer loop over the dropped columns (already reversed to descending
position order): hoisted `free -= 1`, the shift loop, then write the default
at its declared position. -/
def injectLoop {T : Type} (r : List (Option T)) (free last_unmoved : Nat) :
    List (Nat × T) → List (Option T)
  | [] => r
  | (next_insert, dft) :: rest =>
    let w := shiftWhile (free - 1) r last_unmoved next_insert
    injectLoop (w.1.set next_insert (some dft)) w.2.1 w.2.2 rest

/-- `inject_dropped_cols` on one carried row.  `dropped` is the `VecMap`
contents in ascending position order; the source iterates `.rev()`.
`free` starts at `r.len() + ndropped` and `last_unmoved` at `r.len() - 1`
(for an empty row the source's `usize` underflow wraps; the wrapped cursor is
never used on inputs where every position is dropped, and the model's monus
agrees there). -/
def injectRow {T : Type} (dropped : List (Nat × T)) (row : Row T) : List (Option T) :=
  if dropped.length = 0 then row.map some
  else
    injectLoop (row.map some ++ List.replicate dropped.length none)
      (row.length + dropped.length) (row.length - 1) dropped.reverse

/-- The widened row as shipped (the uninitialized-memory `none`s never
survive on valid inputs; see the C4 theorem). -/
def injectRowD {T : Type} [Inhabited T] (dropped : List (Nat × T)) (row : Row T) : Row T :=
  (injectRow dropped row).map (fun o => o.getD default)

/-- `inject_dropped_cols` over the operation list: only `Insert` and
`InsertOrUpdate` carry a row; reshaping `Update`/`Delete` is
`unimplemented!` (`none`). -/
def injectOps {T : Type} [Inhabited T] (dropped : List (Nat × T)) :
    List (BaseOperation T) → Option (List (BaseOperation T))
  | [] => some []
  | op :: ops =>
    match op with
    | .Insert row =>
      (injectOps dropped ops).map (fun rest => .Insert (injectRowD dropped row) :: rest)
    | .InsertOrUpdate row u =>
      (injectOps dropped ops).map
        (fun rest => .InsertOrUpdate (injectRowD dropped row) u :: rest)
    | _ => none

/-- `inject_dropped_cols`: a no-op when no column was dropped. -/
def inject_dropped_cols {T : Type} [Inhabited T] (dropped : List (Nat × T))
    (ops : List (BaseOperation T)) : Option (List (BaseOperation T)) :=
  if dropped.length = 0 then some ops else injectOps dropped ops

/-- The `Mutator` fields the write path reads (`nshards` stands for the
shard address list / `DomainInputHandle` connections; the name, column-name
list, schema and transactional flag play no role in the modelled
behaviour beyond `columns.len()`). -/
structure Mutator (T : Type) where
  nshards : Nat
  addr : Nat
  key_is_primary : Bool
  key : List Nat
  dropped : List (Nat × T)
  columns : List String
deriving Repr, DecidableEq

/-- `Mutator::prep_records`: inject dropped columns and wrap in an `Input`
with `link = (addr, addr)`. -/
def Mutator.prep_records {T : Type} [Inhabited T] (m : Mutator T)
    (ops : List (BaseOperation T)) : Option (Input T) :=
  (inject_dropped_cols m.dropped ops).map
    (fun data => { link := (m.addr, m.addr), data := data })

/-- `Mutator::send` = `prep_records` + `base_send` (a fresh
`BatchSendHandle`, one `enqueue`, then a `wait` whose acknowledgements the
model treats as always succeeding).  Returns the frames written. -/
def Mutator.send {T : Type} [DecidableEq T] [Inhabited T] (sb : T → Nat → Nat)
    (m : Mutator T) (ops : List (BaseOperation T)) : Option (List (Nat × Input T)) :=
  (m.prep_records ops).bind (fun i =>
    (enqueue sb (BatchSendHandle.new m.nshards) i m.key).map (fun h => h.log))

/-- `Mutator::put`: validate the row arity, then send one `Insert`. -/
def Mutator.put {T : Type} [DecidableEq T] [Inhabited T] (sb : T → Nat → Nat)
    (m : Mutator T) (u : Row T) :
    Option (List (Nat × Input T) × Except MutatorError Unit) :=
  if u.length ≠ m.columns.length then
    some ([], .error (.WrongColumnCount m.columns.length u.length))
  else
    (m.send sb [.Insert u]).map (fun log => (log, .ok ()))

/-- The validation/collect loop of `Mutator::multi_put` (short-circuits at
the first arity mismatch, before anything is sent). -/
def validateRows {T : Type} (ncols : Nat) :
    List (Row T) → Except MutatorError (List (BaseOperation T))
  | [] => .ok []
  | r :: rs =>
    if r.length ≠ ncols then .error (.WrongColumnCount ncols r.length)
    else (validateRows ncols rs).map (fun ops => .Insert r :: ops)

/-- `Mutator::multi_put`. -/
def Mutator.multi_put {T : Type} [DecidableEq T] [Inhabited T] (sb : T → Nat → Nat)
    (m : Mutator T) (rows : List (Row T)) :
    Option (List (Nat × Input T) × Except MutatorError Unit) :=
  match validateRows m.columns.length rows with
  | .error e => some ([], .error e)
  | .ok data => (m.send sb data).map (fun log => (log, .ok ()))

/-- `Mutator::delete`: no client-side validation; send one `Delete`. -/
def Mutator.delete {T : Type} [DecidableEq T] [Inhabited T] (sb : T → Nat → Nat)
    (m : Mutator T) (key : Row T) :
    Option (List (Nat × Input T) × Except MutatorError Unit) :=
  (m.send sb [.Delete key]).map (fun log => (log, .ok ()))

/-- The `set[coli] = m` loop of `update`/`insert_or_update`: errors at the
first out-of-range column index. -/
def buildSet {T : Type} (ncols : Nat) (set : List (Modification T)) :
    List (Nat × Modification T) → Except MutatorError (List (Modification T))
  | [] => .ok set
  | (coli, mo) :: rest =>
    if ncols ≤ coli then .error (.WrongColumnCount ncols (coli + 1))
    else buildSet ncols (set.set coli mo) rest

/-- `Mutator::update`: asserts a primary key (`none` models the panic),
checks the key arity, builds the per-column modification vector, sends one
`Update`. -/
def Mutator.update {T : Type} [DecidableEq T] [Inhabited T] (sb : T → Nat → Nat)
    (m : Mutator T) (key : Row T) (u : List (Nat × Modification T)) :
    Option (List (Nat × Input T) × Except MutatorError Unit) :=
  if m.key.isEmpty ∨ m.key_is_primary = false then none
  else if key.length ≠ m.key.length then
    some ([], .error (.WrongKeyColumnCount m.key.length key.length))
  else
    match buildSet m.columns.length (List.replicate m.columns.length .none) u with
    | .error e => some ([], .error e)
    | .ok set => (m.send sb [.Update key set]).map (fun log => (log, .ok ()))

/-- `Mutator::insert_or_update`: asserts a primary key, checks the row
arity, builds the modification vector, sends one `InsertOrUpdate`. -/
def Mutator.insert_or_update {T : Type} [DecidableEq T] [Inhabited T] (sb : T → Nat → Nat)
    (m : Mutator T) (ins : Row T) (u : List (Nat × Modification T)) :
    Option (List (Nat × Input T) × Except MutatorError Unit) :=
  if m.key.isEmpty ∨ m.key_is_primary = false then none
  else if ins.length ≠ m.columns.length then
    some ([], .error (.WrongColumnCount m.columns.length ins.length))
  else
    match buildSet m.columns.length (List.replicate m.columns.length .none) u with
    | .error e => some ([], .error e)
    | .ok set =>
      (m.send sb [.InsertOrUpdate ins set]).map (fun log => (log, .ok ()))

/-- The per-row loop of `Mutator::batch_put`: each operation is validated
(only if it carries a row) and, if valid, prepped and enqueued before the
next one is examined; a validation failure returns immediately with the
frames already written. -/
def batchLoop {T : Type} [DecidableEq T] [Inhabited T] (sb : T → Nat → Nat)
    (m : Mutator T) :
    BatchSendHandle T → List (BaseOperation T) →
    Option (BatchSendHandle T × Option MutatorError)
  | h, [] => some (h, Option.none)
  | h, op :: ops =>
    let cont : Option (BatchSendHandle T × Option MutatorError) :=
      (m.prep_records [op]).bind fun i =>
        (enqueue sb h i m.key).bind fun h' => batchLoop sb m h' ops
    match op.row with
    | some cols =>
      if cols.length ≠ m.columns.length then
        some (h, some (.WrongColumnCount m.columns.length cols.length))
      else cont
    | none => cont

/-- `Mutator::batch_put`: run the loop on a fresh sender, then `wait` (whose
acknowledgements the model treats as always succeeding). -/
def Mutator.batch_put {T : Type} [DecidableEq T] [Inhabited T] (sb : T → Nat → Nat)
    (m : Mutator T) (ops : List (BaseOperation T)) :
    Option (List (Nat × Input T) × Except MutatorError Unit) :=
  (batchLoop sb m (BatchSendHandle.new m.nshards) ops).map
    (fun he => (he.1.log,
      match he.2 with
      | some e => Except.error e
      | Option.none => Except.ok ()))

/-! ### Basic lemmas about the single-index operations -/

theorem insert_into_key {T : Type} [DecidableEq T] [Inhabited T] (s : SingleState T)
    (r : Row T) : (insert_into s r).1.key = s.key := by
  by_cases hp : s.isPart = true <;>
    cases h : ksLookup s.state (proj s.key r) <;> simp [insert_into, h, hp]

theorem insert_into_isPart {T : Type} [DecidableEq T] [Inhabited T] (s : SingleState T)
    (r : Row T) : (insert_into s r).1.isPart = s.isPart := by
  by_cases hp : s.isPart = true <;>
    cases h : ksLookup s.state (proj s.key r) <;> simp [insert_into, h, hp]

theorem foldl_insertStep {T : Type} [DecidableEq T] [Inhabited T] (r : Row T) :
    ∀ (l acc : List (SingleState T)),
      l.foldl (insertStep r) (acc, true)
        = (acc ++ l.map (fun idx => (insert_into idx r).1), true) := by
  intro l
  induction l with
  | nil => intro acc; simp
  | cons x xs ih =>
    intro acc
    rw [List.foldl_cons]
    have hstep : insertStep r (acc, true) x = (acc ++ [(insert_into x r).1], true) := by
      simp [insertStep]
    rw [hstep, ih]
    simp

/-- The untagged branch of `State::insert` in closed form. -/
theorem insert_none {T : Type} [DecidableEq T] [Inhabited T] (s : State T) (r : Row T) :
    s.insert r none
      = ({ s with state := s.state.map (fun idx => (insert_into idx r).1),
                  rows := min (s.rows + 1) usizeMax }, true) := by
  unfold State.insert
  rw [foldl_insertStep]
  simp

theorem insert_tagged_rows {T : Type} [DecidableEq T] [Inhabited T] (s : State T)
    (r : Row T) (t : Tag) : ((s.insert r (some t)).1).rows = s.rows := by
  unfold State.insert
  cases h : tagLookup s.by_tag t <;> simp [h]

theorem insert_by_tag {T : Type} [DecidableEq T] [Inhabited T] (s : State T)
    (r : Row T) (p : Option Tag) : ((s.insert r p).1).by_tag = s.by_tag := by
  unfold State.insert
  cases p with
  | none => simp
  | some t => cases h : tagLookup s.by_tag t <;> simp [h]

theorem foldl_removeStep {T : Type} [DecidableEq T] [Inhabited T] (r : Row T) :
    ∀ (l acc : List (SingleState T)) (b c : Bool),
      l.foldl (removeStep r) (acc, b, c)
        = (acc ++ l.map (fun idx => (removeFromIndex idx r).1),
           b || l.any (fun idx => (removeFromIndex idx r).2.1),
           c || l.any (fun idx => (removeFromIndex idx r).2.2)) := by
  intro l
  induction l with
  | nil => intro acc b c; simp
  | cons x xs ih =>
    intro acc b c
    rw [List.foldl_cons]
    have hstep : removeStep r (acc, b, c) x
        = (acc ++ [(removeFromIndex x r).1],
           b || (removeFromIndex x r).2.1, c || (removeFromIndex x r).2.2) := by
      simp [removeStep]
    rw [hstep, ih]
    simp [Bool.or_assoc]

/-- `State::remove` in closed form. -/
theorem remove_spec {T : Type} [DecidableEq T] [Inhabited T] (s : State T) (r : Row T) :
    s.remove r
      = ({ s with state := s.state.map (fun idx => (removeFromIndex idx r).1),
                  rows := if removesRow s r then s.rows - 1 else s.rows },
         hitsKey s r) := by
  unfold State.remove
  rw [foldl_removeStep]
  rfl

theorem removeFromIndex_hit {T : Type} [DecidableEq T] [Inhabited T] (idx : SingleState T)
    (r : Row T) :
    (removeFromIndex idx r).2.1 = (ksLookup idx.state (proj idx.key r)).isSome := by
  cases h : ksLookup idx.state (proj idx.key r) with
  | none => simp [removeFromIndex, h]
  | some rs => cases hf : rs.findIdx? (fun row => row = r) <;>
      simp [removeFromIndex, h, hf]

theorem findIdx?_isSome_iff {α : Type} (p : α → Bool) :
    ∀ (l : List α) (i : Nat), (List.findIdx? p l i).isSome = true ↔ ∃ x ∈ l, p x = true := by
  intro l
  induction l with
  | nil => intro i; simp [List.findIdx?]
  | cons x xs ih =>
    intro i
    by_cases h : p x = true
    · have hx : List.findIdx? p (x :: xs) i = some i := by simp [List.findIdx?, h]
      rw [hx]
      simp only [Option.isSome_some, true_iff]
      exact ⟨x, List.mem_cons_self x xs, h⟩
    · have hx : List.findIdx? p (x :: xs) i = List.findIdx? p xs (i + 1) := by
        simp [List.findIdx?, h]
      rw [hx, ih]
      constructor
      · rintro ⟨y, hy, hpy⟩; exact ⟨y, List.mem_cons_of_mem _ hy, hpy⟩
      · rintro ⟨y, hy, hpy⟩
        rcases List.mem_cons.mp hy with rfl | hy
        · exact absurd hpy h
        · exact ⟨y, hy, hpy⟩

theorem removeFromIndex_removed {T : Type} [DecidableEq T] [Inhabited T]
    (idx : SingleState T) (r : Row T) :
    (removeFromIndex idx r).2.2 = true
      ↔ ∃ rs, ksLookup idx.state (proj idx.key r) = some rs ∧ r ∈ rs := by
  cases h : ksLookup idx.state (proj idx.key r) with
  | none => simp [removeFromIndex, h]
  | some rs =>
    cases hf : rs.findIdx? (fun row => row = r) with
    | none =>
      simp only [removeFromIndex, h, hf]
      constructor
      · intro hfalse; exact absurd hfalse (by simp)
      · rintro ⟨rs', hrs', hmem⟩
        have hrr : rs = rs' := Option.some.inj hrs'
        subst hrr
        have hsome : (rs.findIdx? (fun row => row = r)).isSome = true :=
          (findIdx?_isSome_iff _ rs 0).mpr ⟨r, hmem, by simp⟩
        rw [hf] at hsome; exact absurd hsome (by simp)
    | some i =>
      simp only [removeFromIndex, h, hf]
      constructor
      · intro _
        have hsome : (rs.findIdx? (fun row => row = r)).isSome = true := by rw [hf]; rfl
        obtain ⟨x, hx, hpx⟩ := (findIdx?_isSome_iff _ rs 0).mp hsome
        have hxr : x = r := by simpa using hpx
        exact ⟨rs, rfl, hxr ▸ hx⟩
      · intro _; trivial

/-! ### C1 -/

/-- C1 fails on the code: on a state whose only index is partial and holds a
hole at the row's key, the sole per-index insertion outcome is `false`
(and the index is left unchanged), yet `insert(r, None)` returns `true`,
because the source initializes the accumulator `hit_any` to `true`. -/
theorem C1_counterexample :
    (State.insert (T := Nat) ⟨[⟨[0], [], true⟩], [(0, 0)], 0⟩ [5] none).2 = true ∧
    (insert_into (T := Nat) ⟨[0], [], true⟩ [5]).2 = false ∧
    (State.insert (T := Nat) ⟨[⟨[0], [], true⟩], [(0, 0)], 0⟩ [5] none).1.state
      = [⟨[0], [], true⟩] := by
  refine ⟨by decide, by decide, by decide⟩

/-- C1 (amended): for every State and row `r`, `insert(r, None)` increments
the row count (saturating) and attempts the insert on every index, but
returns `true` unconditionally: the OR of the per-index outcomes is seeded
with `true`, so it does not report whether any index accepted the row. -/
theorem C1_amended {T : Type} [DecidableEq T] [Inhabited T] (s : State T) (r : Row T) :
    (s.insert r none).2 = true ∧
    (s.insert r none).1.rows = min (s.rows + 1) usizeMax ∧
    (s.insert r none).1.state = s.state.map (fun idx => (insert_into idx r).1) := by
  rw [insert_none]
  exact ⟨rfl, rfl, rfl⟩

/-- C1 (amended) at a concrete input: the state of `C1_counterexample`. -/
theorem C1_amended_witness :
    (State.insert (T := Nat) ⟨[⟨[0], [], true⟩], [(0, 0)], 0⟩ [5] none).2 = true ∧
    (State.insert (T := Nat) ⟨[⟨[0], [], true⟩], [(0, 0)], 0⟩ [5] none).1.rows = 1 := by
  refine ⟨(C1_amended _ [5]).1, ?_⟩
  have h := (C1_amended (T := Nat) ⟨[⟨[0], [], true⟩], [(0, 0)], 0⟩ [5]).2.1
  rw [h]
  decide

/-! ### C3 -/

/-- C3: on a State with an index on column set `C` (position `j`, the first
such index) and a key of that index's arity, `lookup(C, k)` returns the
bucket when one exists at `k`; otherwise `Missing` when the index is partial
and `Some(&[])` when it is not. -/
theorem C3_lookup {T : Type} [DecidableEq T] (s : State T) (C : List Nat) (j : Nat)
    (idx : SingleState T) (k : Row T)
    (hfor : s.state_for C = some j) (hj : s.state[j]? = some idx)
    (hk : k.length = idx.key.length) :
    (∀ rs, ksLookup idx.state k = some rs → s.lookup C k = some (.found rs)) ∧
    (ksLookup idx.state k = none → idx.isPart = true → s.lookup C k = some .missing) ∧
    (ksLookup idx.state k = none → idx.isPart = false → s.lookup C k = some (.found [])) := by
  refine ⟨?_, ?_, ?_⟩
  · intro rs hrs
    simp [State.lookup, hfor, hj, hk, hrs]
  · intro hnone hp
    simp [State.lookup, hfor, hj, hk, hnone, hp]
  · intro hnone hp
    simp [State.lookup, hfor, hj, hk, hnone, hp]

/-- C3 at a concrete input: a one-index state with a single bucket. -/
theorem C3_lookup_witness :
    (State.lookup (T := Nat) ⟨[⟨[0], [([1], [[1, 7]])], false⟩], [], 1⟩ [0] [1]
      = some (.found [[1, 7]])) ∧
    (State.lookup (T := Nat) ⟨[⟨[0], [([1], [[1, 7]])], false⟩], [], 1⟩ [0] [2]
      = some (.found [])) := by
  have h := C3_lookup (T := Nat) ⟨[⟨[0], [([1], [[1, 7]])], false⟩], [], 1⟩ [0] 0
    ⟨[0], [([1], [[1, 7]])], false⟩ [1] (by decide) (by decide) (by decide)
  have h2 := C3_lookup (T := Nat) ⟨[⟨[0], [([1], [[1, 7]])], false⟩], [], 1⟩ [0] 0
    ⟨[0], [([1], [[1, 7]])], false⟩ [2] (by decide) (by decide) (by decide)
  exact ⟨h.1 [[1, 7]] (by decide), h2.2.2 (by decide) rfl⟩

/-! ### C9 -/

/-- C9: `remove(r)` returns `true` exactly when some index has a bucket at
`r`'s key projection (whether or not `r` is inside); the row count drops by
one (saturating at zero) exactly when some index's bucket actually contains a
row equal to `r`, and it drops at most once however many indices held it. -/
theorem C9_remove {T : Type} [DecidableEq T] [Inhabited T] (s : State T) (r : Row T) :
    ((s.remove r).2 = true
       ↔ ∃ idx ∈ s.state, (ksLookup idx.state (proj idx.key r)).isSome = true) ∧
    ((s.remove r).1.rows = if removesRow s r then s.rows - 1 else s.rows) ∧
    (removesRow s r = true
       ↔ ∃ idx ∈ s.state, ∃ rs, ksLookup idx.state (proj idx.key r) = some rs ∧ r ∈ rs) := by
  rw [remove_spec]
  refine ⟨?_, rfl, ?_⟩
  · show hitsKey s r = true ↔ _
    unfold hitsKey
    rw [List.any_eq_true]
    constructor
    · rintro ⟨idx, hm, hp⟩; exact ⟨idx, hm, by rw [← removeFromIndex_hit]; exact hp⟩
    · rintro ⟨idx, hm, hp⟩; exact ⟨idx, hm, by rw [removeFromIndex_hit]; exact hp⟩
  · unfold removesRow
    rw [List.any_eq_true]
    constructor
    · rintro ⟨idx, hm, hp⟩; exact ⟨idx, hm, (removeFromIndex_removed idx r).mp hp⟩
    · rintro ⟨idx, hm, hp⟩; exact ⟨idx, hm, (removeFromIndex_removed idx r).mpr hp⟩

/-- C9 at a concrete input: a bucket exists at the key but holds a different
row, so `remove` hits without decrementing. -/
theorem C9_remove_witness :
    (State.remove (T := Nat) ⟨[⟨[0], [([1], [[1, 7]])], false⟩], [], 1⟩ [1, 9]).2 = true ∧
    (State.remove (T := Nat) ⟨[⟨[0], [([1], [[1, 7]])], false⟩], [], 1⟩ [1, 9]).1.rows = 1 := by
  have h := C9_remove (T := Nat) ⟨[⟨[0], [([1], [[1, 7]])], false⟩], [], 1⟩ [1, 9]
  constructor
  · exact h.1.mpr ⟨⟨[0], [([1], [[1, 7]])], false⟩, by decide, by decide⟩
  · rw [h.2.1]; decide

theorem rowCount_correct {T : Type} [DecidableEq T] [Inhabited T] :
    ∀ (ops : List (Op T)) (s : State T) (c : Nat), c = s.rows →
      (applyOps s ops).rows = rowCount s c ops := by
  intro ops
  induction ops with
  | nil => intro s c hc; simp [applyOps, rowCount, hc]
  | cons op ops ih =>
    intro s c hc
    subst hc
    show (applyOps (applyOp s op) ops).rows = _
    rw [rowCount.eq_def]
    apply ih
    cases op with
    | ins r tg =>
      cases tg with
      | none => show min (s.rows + 1) usizeMax = (s.insert r none).1.rows
                rw [(C1_amended s r).2.1]
      | some t => exact (insert_tagged_rows s r t).symm
    | rem r => show (if removesRow s r then s.rows - 1 else s.rows) = (s.remove r).1.rows
               rw [remove_spec]

/-- C8: over any event sequence, `len()` follows the saturating bookkeeping of
`rowCount` (untagged inserts add one, saturating at `usize::MAX`; tagged
inserts never change it; each remove subtracts at most one, saturating at
zero, so the count is never negative). -/
theorem C8_len {T : Type} [DecidableEq T] [Inhabited T] :
    (∀ (s : State T) (ops : List (Op T)), (applyOps s ops).rows = rowCount s s.rows ops) ∧
    (∀ (s : State T) (r : Row T) (t : Tag), ((s.insert r (some t)).1).rows = s.rows) ∧
    (∀ (s : State T) (r : Row T),
      ((s.remove r).1).rows = s.rows ∨ ((s.remove r).1).rows + 1 = s.rows) := by
  refine ⟨fun s ops => rowCount_correct ops s s.rows rfl, insert_tagged_rows, ?_⟩
  intro s r
  rw [remove_spec]
  show (if removesRow s r then s.rows - 1 else s.rows) = s.rows ∨ _
  by_cases h : removesRow s r
  · rw [if_pos h]
    cases hs : s.rows with
    | zero => left; rfl
    | succ n => right; simp
  · left; rw [if_neg h]

/-- C8 at a concrete input: insert, unknown-tag insert, then remove. -/
theorem C8_len_witness :
    (applyOps (T := Nat) ⟨[⟨[0], [], false⟩], [], 0⟩
        [.ins [1, 2] none, .ins [9, 9] (some 3), .rem [1, 2]]).rows
      = rowCount (T := Nat) ⟨[⟨[0], [], false⟩], [], 0⟩ 0
        [.ins [1, 2] none, .ins [9, 9] (some 3), .rem [1, 2]] ∧
    rowCount (T := Nat) ⟨[⟨[0], [], false⟩], [], 0⟩ 0
        [.ins [1, 2] none, .ins [9, 9] (some 3), .rem [1, 2]] = 0 := by
  exact ⟨C8_len.1 _ _, by decide⟩

/-! ### C10 -/

/-- C10: on a State with no indices, an untagged insert returns `true` and
bumps the row count, after which `len()` is positive while `is_useful()` is
`false` and `is_empty()` is `true`, and every lookup is a panic (no column
set is indexed), so no lookup can retrieve the row. -/
theorem C10_no_indices {T : Type} [DecidableEq T] [Inhabited T] (s : State T) (r : Row T)
    (h : s.state = []) :
    (s.insert r none).2 = true ∧
    (s.insert r none).1.rows = min (s.rows + 1) usizeMax ∧
    0 < (s.insert r none).1.len ∧
    (s.insert r none).1.is_useful = false ∧
    (s.insert r none).1.is_empty = true ∧
    ∀ (C : List Nat) (k : Row T), (s.insert r none).1.lookup C k = none := by
  rw [insert_none]
  refine ⟨rfl, rfl, ?_, ?_, ?_, ?_⟩
  · show 0 < min (s.rows + 1) usizeMax
    apply lt_min (Nat.succ_pos _)
    show 0 < 2 ^ 64 - 1
    norm_num
  · simp [State.is_useful, h]
  · simp [State.is_empty, h]
  · intro C k
    simp [State.lookup, State.state_for, h, State.state_for.go]

/-- C10 at a concrete input. -/
theorem C10_no_indices_witness :
    (State.insert (T := Nat) ⟨[], [], 0⟩ [3, 4] none).2 = true ∧
    (State.insert (T := Nat) ⟨[], [], 0⟩ [3, 4] none).1.lookup [0] [3] = none := by
  have h := C10_no_indices (T := Nat) ⟨[], [], 0⟩ [3, 4] rfl
  exact ⟨h.1, h.2.2.2.2.2 [0] [3]⟩

/-! ### Association-list lemmas for the partial-materialization protocol -/

theorem ksLookup_append_absent {T : Type} [DecidableEq T] (m : KS T) (k : Row T)
    (v : List (Row T)) (h : ksLookup m k = none) :
    ksLookup (m ++ [(k, v)]) k = some v := by
  induction m with
  | nil => simp [ksLookup]
  | cons e rest ih =>
    obtain ⟨k', v'⟩ := e
    simp only [ksLookup] at h
    by_cases hk : k' = k
    · simp [hk] at h
    · simp only [hk, if_false] at h
      simp [ksLookup, hk, ih h]

theorem ksInsert_absent {T : Type} [DecidableEq T] (m : KS T) (k : Row T)
    (v : List (Row T)) (h : ksLookup m k = none) :
    ksInsert m k v = (m ++ [(k, v)], none) := by
  induction m with
  | nil => simp [ksInsert]
  | cons e rest ih =>
    obtain ⟨k', v'⟩ := e
    simp only [ksLookup] at h
    by_cases hk : k' = k
    · simp [hk] at h
    · simp only [hk, if_false] at h
      simp [ksInsert, hk, ih h]

theorem ksModify_append_absent {T : Type} [DecidableEq T] (m : KS T) (k : Row T)
    (v : List (Row T)) (f : List (Row T) → List (Row T)) (h : ksLookup m k = none) :
    ksModify (m ++ [(k, v)]) k f = m ++ [(k, f v)] := by
  induction m with
  | nil => simp [ksModify]
  | cons e rest ih =>
    obtain ⟨k', v'⟩ := e
    simp only [ksLookup] at h
    by_cases hk : k' = k
    · simp [hk] at h
    · simp only [hk, if_false] at h
      simp [ksModify, hk, ih h]

theorem ksRemove_append_absent {T : Type} [DecidableEq T] (m : KS T) (k : Row T)
    (v : List (Row T)) (h : ksLookup m k = none) :
    ksRemove (m ++ [(k, v)]) k = (m, some v) := by
  induction m with
  | nil => simp [ksRemove]
  | cons e rest ih =>
    obtain ⟨k', v'⟩ := e
    simp only [ksLookup] at h
    by_cases hk : k' = k
    · simp [hk] at h
    · simp only [hk, if_false] at h
      simp [ksRemove, hk, ih h]

theorem set_eq_self_of_getElem? {α : Type} :
    ∀ (l : List α) (n : Nat) (a : α), l[n]? = some a → l.set n a = l := by
  intro l
  induction l with
  | nil => intro n a h; simp at h
  | cons x xs ih =>
    intro n a h
    cases n with
    | zero => simp at h; simp [h]
    | succ n =>
      simp only [List.getElem?_cons_succ] at h
      simp [ih n a h]

theorem state_for_go_congr {T : Type} (cols : List Nat) :
    ∀ (l l' : List (SingleState T)) (n : Nat),
      l.map SingleState.key = l'.map SingleState.key →
      State.state_for.go cols l n = State.state_for.go cols l' n := by
  intro l
  induction l with
  | nil =>
    intro l' n h
    cases l' with
    | nil => rfl
    | cons b l'' => simp at h
  | cons a l ih =>
    intro l' n h
    cases l' with
    | nil => simp at h
    | cons b l'' =>
      simp only [List.map_cons, List.cons.injEq] at h
      rw [State.state_for.go, State.state_for.go, h.1, ih l'' (n + 1) h.2]

theorem state_for_congr {T : Type} (s s' : State T) (cols : List Nat)
    (h : s.state.map SingleState.key = s'.state.map SingleState.key) :
    s.state_for cols = s'.state_for cols :=
  state_for_go_congr cols s.state s'.state 0 h

theorem keyList_set {T : Type} (s : List (SingleState T)) (j : Nat)
    (idx idx' : SingleState T) (hj : s[j]? = some idx) (hkey : idx'.key = idx.key) :
    (s.set j idx').map SingleState.key = s.map SingleState.key := by
  rw [List.map_set, hkey]
  exact set_eq_self_of_getElem? _ _ _ (by rw [List.getElem?_map, hj]; rfl)

theorem keyList_map_insert {T : Type} [DecidableEq T] [Inhabited T]
    (l : List (SingleState T)) (r : Row T) :
    (l.map (fun idx => (insert_into idx r).1)).map SingleState.key
      = l.map SingleState.key := by
  rw [List.map_map]
  exact List.map_eq_map_iff.mpr (fun idx _ => insert_into_key idx r)

/-- `State::insert_into` at an occupied key. -/
theorem insert_into_occupied {T : Type} [DecidableEq T] [Inhabited T]
    (idx : SingleState T) (r : Row T) (rs : List (Row T))
    (h : ksLookup idx.state (proj idx.key r) = some rs) :
    insert_into idx r
      = ({ idx with state := ksModify idx.state (proj idx.key r) (fun b => b ++ [r]) },
         true) := by
  simp only [insert_into, h]

/-- `State::lookup` when the index position and contents are known. -/
theorem lookup_of_parts {T : Type} [DecidableEq T] (s : State T) (C : List Nat) (j : Nat)
    (idx : SingleState T) (k : Row T)
    (hfor : s.state_for C = some j) (hj : s.state[j]? = some idx)
    (hk : k.length = idx.key.length) :
    s.lookup C k
      = (match ksLookup idx.state k with
         | some rs => some (.found rs)
         | none => if idx.isPart then some .missing else some (.found [])) := by
  simp [State.lookup, hfor, hj, hk]

/-- `State::mark_filled` when the tag and index are known and the key is
absent. -/
theorem mark_filled_of_parts {T : Type} [DecidableEq T] (s : State T) (j : Nat)
    (idx : SingleState T) (t : Tag) (k : Row T)
    (ht : tagLookup s.by_tag t = some j) (hj : s.state[j]? = some idx)
    (hlen : idx.key.length ≤ k.length)
    (habs : ksLookup idx.state (k.take idx.key.length) = none) :
    s.mark_filled k t
      = some { s with
               state := s.state.set j
                 ({ idx with state := idx.state ++ [(k.take idx.key.length, [])] }) } := by
  simp [State.mark_filled, ht, hj, hlen, ksInsert_absent _ _ _ habs]

/-- `State::mark_hole` when the tag and index are known and the bucket
exists. -/
theorem mark_hole_of_parts {T : Type} [DecidableEq T] (s : State T) (j : Nat)
    (idx : SingleState T) (t : Tag) (k : Row T) (m' : KS T) (v : List (Row T))
    (ht : tagLookup s.by_tag t = some j) (hj : s.state[j]? = some idx)
    (hlen : idx.key.length ≤ k.length)
    (hrem : ksRemove idx.state (k.take idx.key.length) = (m', some v)) :
    s.mark_hole k t = some { s with state := s.state.set j ({ idx with state := m' }) } := by
  simp [State.mark_hole, ht, hj, hlen, hrem]

/-! ### C6 -/

/-- C6: on a State with a partial index at position `j` (the first index on
its column set) registered under tag `t`, and a key `k` of its arity that is
a hole: `mark_filled(k, t)` makes `lookup` return `Some(&[])`; a following
untagged insert of a row projecting to `k` makes the bucket `[row]`; a
following `mark_hole(k, t)` makes `lookup` return `Missing` again. -/
theorem C6_fill_insert_hole {T : Type} [DecidableEq T] [Inhabited T]
    (s : State T) (j : Nat) (idx : SingleState T) (t : Tag) (k row : Row T)
    (hj : s.state[j]? = some idx)
    (hp : idx.isPart = true)
    (hfor : s.state_for idx.key = some j)
    (ht : tagLookup s.by_tag t = some j)
    (hk : ksLookup idx.state k = none)
    (hlen : k.length = idx.key.length)
    (hproj : proj idx.key row = k) :
    ∃ s1 s2 s3,
      s.mark_filled k t = some s1 ∧
      s1.lookup idx.key k = some (.found []) ∧
      s1.insert row none = (s2, true) ∧
      s2.lookup idx.key k = some (.found [row]) ∧
      s2.mark_hole k t = some s3 ∧
      s3.lookup idx.key k = some .missing := by
  have hjlt : j < s.state.length := (List.getElem?_eq_some.mp hj).1
  have htake : k.take idx.key.length = k := by rw [← hlen]; exact List.take_length k
  -- step 1: mark_filled
  set idx1 : SingleState T := { idx with state := idx.state ++ [(k, [])] } with hidx1
  set s1 : State T := { s with state := s.state.set j idx1 } with hs1
  have hmf : s.mark_filled k t = some s1 := by
    have habs : ksLookup idx.state (k.take idx.key.length) = none := by
      rw [htake]; exact hk
    rw [mark_filled_of_parts s j idx t k ht hj (le_of_eq hlen.symm) habs, htake]
  have hkeys1 : s1.state.map SingleState.key = s.state.map SingleState.key :=
    keyList_set s.state j idx idx1 hj rfl
  have hfor1 : s1.state_for idx.key = some j := by
    rw [state_for_congr s1 s idx.key hkeys1]; exact hfor
  have hj1 : s1.state[j]? = some idx1 := by
    show (s.state.set j idx1)[j]? = some idx1
    exact List.getElem?_set_self hjlt
  have hlook1 : s1.lookup idx.key k = some (.found []) := by
    rw [lookup_of_parts s1 idx.key j idx1 k hfor1 hj1 hlen]
    have hlk : ksLookup idx1.state k = some [] := ksLookup_append_absent idx.state k [] hk
    rw [hlk]
  -- step 2: untagged insert
  set idx2 : SingleState T := { idx with state := idx.state ++ [(k, [row])] } with hidx2
  have hins1 : insert_into idx1 row = (idx2, true) := by
    have hpj : proj idx1.key row = k := hproj
    have hlk : ksLookup idx1.state (proj idx1.key row) = some [] := by
      rw [hpj]; exact ksLookup_append_absent idx.state k [] hk
    rw [insert_into_occupied idx1 row [] hlk]
    have hmod : ksModify idx1.state (proj idx1.key row) (fun b => b ++ [row])
        = idx.state ++ [(k, [row])] := by
      rw [hpj]; exact ksModify_append_absent idx.state k [] (fun b => b ++ [row]) hk
    rw [hmod]
  set s2 : State T := { s1 with
    state := s1.state.map (fun i => (insert_into i row).1),
    rows := min (s1.rows + 1) usizeMax } with hs2
  have hins : s1.insert row none = (s2, true) := insert_none s1 row
  have hstate2 : s2.state = s1.state.map (fun i => (insert_into i row).1) := rfl
  have hbt2 : s2.by_tag = s.by_tag := rfl
  have hkeys2 : s2.state.map SingleState.key = s.state.map SingleState.key := by
    rw [hstate2, keyList_map_insert, hkeys1]
  have hfor2 : s2.state_for idx.key = some j := by
    rw [state_for_congr s2 s idx.key hkeys2]; exact hfor
  have hj2 : s2.state[j]? = some idx2 := by
    rw [hstate2, List.getElem?_map, hj1]
    simp only [Option.map_some']
    rw [hins1]
  have hlook2 : s2.lookup idx.key k = some (.found [row]) := by
    rw [lookup_of_parts s2 idx.key j idx2 k hfor2 hj2 hlen]
    have hlk : ksLookup idx2.state k = some [row] :=
      ksLookup_append_absent idx.state k [row] hk
    rw [hlk]
  -- step 3: mark_hole
  set idx3 : SingleState T := { idx2 with state := idx.state } with hidx3
  set s3 : State T := { s2 with state := s2.state.set j idx3 } with hs3
  have hmh : s2.mark_hole k t = some s3 := by
    have hrem : ksRemove idx2.state (k.take idx2.key.length) = (idx.state, some [row]) := by
      show ksRemove (idx.state ++ [(k, [row])]) (k.take idx.key.length) = _
      rw [htake]
      exact ksRemove_append_absent idx.state k [row] hk
    have ht2 : tagLookup s2.by_tag t = some j := by rw [hbt2]; exact ht
    rw [mark_hole_of_parts s2 j idx2 t k idx.state [row] ht2 hj2 (le_of_eq hlen.symm) hrem]
  have hj2lt : j < s2.state.length := by
    rw [hstate2, List.length_map]
    show j < (s.state.set j idx1).length
    rw [List.length_set]
    exact hjlt
  have hkeys3 : s3.state.map SingleState.key = s.state.map SingleState.key := by
    show (s2.state.set j idx3).map SingleState.key = _
    rw [keyList_set s2.state j idx2 idx3 hj2 rfl]
    exact hkeys2
  have hfor3 : s3.state_for idx.key = some j := by
    rw [state_for_congr s3 s idx.key hkeys3]; exact hfor
  have hj3 : s3.state[j]? = some idx3 := by
    show (s2.state.set j idx3)[j]? = some idx3
    exact List.getElem?_set_self hj2lt
  have hlook3 : s3.lookup idx.key k = some .missing := by
    rw [lookup_of_parts s3 idx.key j idx3 k hfor3 hj3 hlen]
    have hlk : ksLookup idx3.state k = none := hk
    rw [hlk]
    have hp3 : idx3.isPart = true := hp
    rw [hp3]
    rfl
  exact ⟨s1, s2, s3, hmf, hlook1, hins, hlook2, hmh, hlook3⟩

/-- C6 at a concrete input: the spec's S2 scenario. -/
theorem C6_fill_insert_hole_witness :
    ∃ s1 s2 s3,
      (State.mark_filled (T := Nat) ⟨[⟨[0], [], true⟩], [(7, 0)], 0⟩ [42] 7 = some s1) ∧
      (s1.lookup [0] [42] = some (.found [])) ∧
      (s1.insert [42, 9] none = (s2, true)) ∧
      (s2.lookup [0] [42] = some (.found [[42, 9]])) ∧
      (s2.mark_hole [42] 7 = some s3) ∧
      (s3.lookup [0] [42] = some .missing) :=
  C6_fill_insert_hole (T := Nat) ⟨[⟨[0], [], true⟩], [(7, 0)], 0⟩ 0
    ⟨[0], [], true⟩ 7 [42] [42, 9] (by decide) (by decide) (by decide) (by decide)
    (by decide) (by decide) (by decide)

/-! ### Backfill lemmas for `add_key` -/

theorem ksRows_append {T : Type} (m : KS T) (k : Row T) (v : List (Row T)) :
    ksRows (m ++ [(k, v)]) = ksRows m ++ v := by
  simp [ksRows]

theorem ksRows_ksModify_push {T : Type} [DecidableEq T] (m : KS T) (k : Row T)
    (r : Row T) (rs : List (Row T)) (h : ksLookup m k = some rs) :
    (ksRows (ksModify m k (fun b => b ++ [r]))).Perm (r :: ksRows m) := by
  induction m with
  | nil => simp [ksLookup] at h
  | cons e rest ih =>
    obtain ⟨k', v⟩ := e
    by_cases hk : k' = k
    · simp only [ksModify, hk, if_true, ksRows, List.map_cons, List.flatten_cons]
      have : v ++ [r] ++ (List.map Prod.snd rest).flatten
          = v ++ r :: (List.map Prod.snd rest).flatten := by
        rw [List.append_assoc]; rfl
      rw [this]
      exact List.perm_middle
    · simp only [ksLookup, hk, if_false] at h
      simp only [ksModify, hk, if_false, ksRows, List.map_cons, List.flatten_cons]
      have hperm := ih h
      exact (hperm.append_left v).trans List.perm_middle

theorem ksRows_ksInsert_absent {T : Type} [DecidableEq T] (m : KS T) (k : Row T)
    (r : Row T) (h : ksLookup m k = none) :
    ksRows (ksInsert m k [r]).1 = ksRows m ++ [r] := by
  rw [ksInsert_absent m k [r] h]
  exact ksRows_append m k [r]

theorem insert_into_rows_perm {T : Type} [DecidableEq T] [Inhabited T]
    (idx : SingleState T) (r : Row T) (hp : idx.isPart = false) :
    (ksRows (insert_into idx r).1.state).Perm (r :: ksRows idx.state) := by
  cases h : ksLookup idx.state (proj idx.key r) with
  | some rs =>
    rw [insert_into_occupied idx r rs h]
    exact ksRows_ksModify_push idx.state (proj idx.key r) r rs h
  | none =>
    have : insert_into idx r = ({ idx with state := (ksInsert idx.state (proj idx.key r) [r]).1 }, true) := by
      simp only [insert_into, h, hp]
      rfl
    rw [this]
    show (ksRows (ksInsert idx.state (proj idx.key r) [r]).1).Perm _
    rw [ksRows_ksInsert_absent idx.state (proj idx.key r) r h]
    exact List.perm_append_singleton r (ksRows idx.state)

theorem insertAll_rows_perm {T : Type} [DecidableEq T] [Inhabited T] :
    ∀ (rs : List (Row T)) (idx : SingleState T), idx.isPart = false →
      (ksRows (insertAll idx rs).state).Perm (rs ++ ksRows idx.state) := by
  intro rs
  induction rs with
  | nil => intro idx hp; simp [insertAll]
  | cons r rest ih =>
    intro idx hp
    have hstep : insertAll idx (r :: rest) = insertAll (insert_into idx r).1 rest := rfl
    rw [hstep]
    have hp' : (insert_into idx r).1.isPart = false := by
      rw [insert_into_isPart]; exact hp
    exact (ih _ hp').trans
      (((insert_into_rows_perm idx r hp).append_left rest).trans List.perm_middle)

/-! ### Tag registration lemmas -/

theorem tagLookup_tagInsert (bt : List (Tag × Nat)) (u t : Tag) (i : Nat) :
    tagLookup (tagInsert bt u i) t = if u = t then some i else tagLookup bt t := by
  induction bt with
  | nil => simp [tagInsert, tagLookup]
  | cons e rest ih =>
    obtain ⟨t', i'⟩ := e
    by_cases hu : t' = u
    · subst hu
      by_cases htt : t' = t
      · simp [tagInsert, tagLookup, htt]
      · simp [tagInsert, tagLookup, htt]
    · by_cases htt : t' = t
      · subst htt
        have hu' : ¬u = t' := fun h => hu h.symm
        simp [tagInsert, tagLookup, hu, hu']
      · simp [tagInsert, tagLookup, hu, htt, ih]

theorem tagLookup_foldl_preserve (i : Nat) :
    ∀ (tags : List Tag) (bt : List (Tag × Nat)) (t : Tag),
      tagLookup bt t = some i →
      tagLookup (tags.foldl (fun b tg => tagInsert b tg i) bt) t = some i := by
  intro tags
  induction tags with
  | nil => intro bt t h; exact h
  | cons u rest ih =>
    intro bt t h
    rw [List.foldl_cons]
    apply ih
    rw [tagLookup_tagInsert]
    by_cases hu : u = t <;> simp [hu, h]

theorem tagLookup_foldl_mem (i : Nat) :
    ∀ (tags : List Tag) (bt : List (Tag × Nat)) (t : Tag), t ∈ tags →
      tagLookup (tags.foldl (fun b tg => tagInsert b tg i) bt) t = some i := by
  intro tags
  induction tags with
  | nil => intro bt t h; simp at h
  | cons u rest ih =>
    intro bt t h
    rw [List.foldl_cons]
    rcases List.mem_cons.mp h with rfl | hm
    · apply tagLookup_foldl_preserve
      rw [tagLookup_tagInsert]
      simp
    · exact ih _ t hm

/-! ### Closed forms of `add_key` -/

theorem add_key_none_eq {T : Type} [DecidableEq T] [Inhabited T] (s : State T)
    (columns : List Nat) (first : SingleState T) (rest : List (SingleState T))
    (hfor : s.state_for columns = none)
    (hst : s.state = first :: rest)
    (hfe : first.state.isEmpty = false) :
    s.add_key columns none
      = { s with state :=
            s.state ++ [insertAll ⟨columns, [], false⟩ (ksRows first.state)] } := by
  simp [State.add_key, hfor, hst, State.is_empty, hfe]

theorem add_key_tags_eq {T : Type} [DecidableEq T] [Inhabited T] (s : State T)
    (columns : List Nat) (tags : List Tag)
    (hfor : s.state_for columns = none) :
    s.add_key columns (some tags)
      = { s with
          state := s.state ++ [⟨columns, [], true⟩],
          by_tag := tags.foldl (fun b tg => tagInsert b tg s.state.length) s.by_tag } := by
  simp only [State.add_key, hfor, Option.isSome_none, Bool.false_eq_true, if_false,
    Option.isSome_some, if_true, Option.getD_none]
  split <;> rfl

/-! ### C7 -/

/-- C7: `add_key` on a non-empty State with no index on `columns` yet.
With `None`, the appended index is non-partial, keyed by `columns`, holds
exactly (as a multiset) the rows of the first pre-existing index, and the
old indices are untouched — so if every non-partial index (the first one
included) held the full row multiset before, every non-partial index does
after.  With `Some tags`, the appended index is empty and every supplied tag
resolves to it. -/
theorem C7_add_key {T : Type} [DecidableEq T] [Inhabited T] (s : State T)
    (columns : List Nat) (tags : List Tag) (first : SingleState T)
    (rest : List (SingleState T))
    (hfor : s.state_for columns = none)
    (hst : s.state = first :: rest)
    (hfe : first.state.isEmpty = false) :
    ((s.add_key columns none).state
        = s.state ++ [insertAll ⟨columns, [], false⟩ (ksRows first.state)] ∧
      (insertAll (T := T) ⟨columns, [], false⟩ (ksRows first.state)).key = columns ∧
      (insertAll (T := T) ⟨columns, [], false⟩ (ksRows first.state)).isPart = false ∧
      (ksRows (insertAll (T := T) ⟨columns, [], false⟩ (ksRows first.state)).state).Perm
        (ksRows first.state)) ∧
    (∀ R : List (Row T),
      (ksRows first.state).Perm R →
      (∀ idx ∈ s.state, idx.isPart = false → (ksRows idx.state).Perm R) →
      (∀ idx ∈ (s.add_key columns none).state, idx.isPart = false →
        (ksRows idx.state).Perm R)) ∧
    ((s.add_key columns (some tags)).state = s.state ++ [⟨columns, [], true⟩] ∧
      ∀ t ∈ tags,
        tagLookup ((s.add_key columns (some tags)).by_tag) t = some s.state.length) := by
  have hkey : ∀ rs : List (Row T), (insertAll (T := T) ⟨columns, [], false⟩ rs).key = columns := by
    intro rs
    have : ∀ (l : List (Row T)) (idx : SingleState T),
        (insertAll idx l).key = idx.key := by
      intro l
      induction l with
      | nil => intro idx; rfl
      | cons x xs ih => intro idx; rw [show insertAll idx (x :: xs) = insertAll (insert_into idx x).1 xs from rfl, ih, insert_into_key]
    exact this _ _
  have hpart : ∀ rs : List (Row T),
      (insertAll (T := T) ⟨columns, [], false⟩ rs).isPart = false := by
    intro rs
    have : ∀ (l : List (Row T)) (idx : SingleState T),
        (insertAll idx l).isPart = idx.isPart := by
      intro l
      induction l with
      | nil => intro idx; rfl
      | cons x xs ih => intro idx; rw [show insertAll idx (x :: xs) = insertAll (insert_into idx x).1 xs from rfl, ih, insert_into_isPart]
    exact this _ _
  have hrows : (ksRows (insertAll (T := T) ⟨columns, [], false⟩ (ksRows first.state)).state).Perm
      (ksRows first.state) := by
    have h := insertAll_rows_perm (ksRows first.state) (⟨columns, [], false⟩ : SingleState T) rfl
    exact h.trans (List.Perm.of_eq (by simp [ksRows]))
  have hnone := add_key_none_eq s columns first rest hfor hst hfe
  refine ⟨⟨by rw [hnone], hkey _, hpart _, hrows⟩, ?_, ?_⟩
  · intro R hfirstR hold idx hidx hpidx
    rw [hnone] at hidx
    simp only [List.mem_append, List.mem_singleton] at hidx
    rcases hidx with hidx | rfl
    · exact hold idx hidx hpidx
    · exact hrows.trans hfirstR
  · have htags := add_key_tags_eq s columns tags hfor
    refine ⟨by rw [htags], ?_⟩
    intro t htm
    rw [htags]
    exact tagLookup_foldl_mem s.state.length tags s.by_tag t htm

/-- C7 at a concrete input: the spec's S6 backfill scenario plus a tagged
index. -/
theorem C7_add_key_witness :
    ((State.add_key (T := Nat)
        ⟨[⟨[0], [([1], [[1, 10]]), ([2], [[2, 10]]), ([3], [[3, 11]])], false⟩], [], 3⟩
        [1] none).state.length = 2) ∧
    (tagLookup ((State.add_key (T := Nat)
        ⟨[⟨[0], [([1], [[1, 10]]), ([2], [[2, 10]]), ([3], [[3, 11]])], false⟩], [], 3⟩
        [1] (some [4, 9])).by_tag) 4 = some 1) := by
  have h := C7_add_key (T := Nat)
    ⟨[⟨[0], [([1], [[1, 10]]), ([2], [[2, 10]]), ([3], [[3, 11]])], false⟩], [], 3⟩
    [1] [4, 9] ⟨[0], [([1], [[1, 10]]), ([2], [[2, 10]]), ([3], [[3, 11]])], false⟩ []
    (by decide) (by decide) (by decide)
  constructor
  · rw [h.1.1]; decide
  · exact h.2.2.2 4 (by decide)

/-! ### C2 -/

/-- C2 fails on the code for `batch_put`: each operation is validated only as
it is enqueued, so with columns `[a,b,c]` the batch
`[Insert [1,2,3], Insert [1,2]]` first ships a frame carrying the valid row
and only then returns `WrongColumnCount(3, 2)` — data was sent before the
error. -/
theorem C2_counterexample :
    Mutator.batch_put (T := Nat) (fun x n => x % n) ⟨1, 0, true, [0], [], ["a", "b", "c"]⟩
      [.Insert [1, 2, 3], .Insert [1, 2]]
      = some ([(0, { link := (0, 0), data := [.Insert [1, 2, 3]] })],
              .error (.WrongColumnCount 3 2)) := by
  rfl

theorem batchLoop_error_after_valid {T : Type} [DecidableEq T] [Inhabited T]
    (sb : T → Nat → Nat) (m : Mutator T) (bad : BaseOperation T) (cols : Row T)
    (ops : List (BaseOperation T))
    (hbad : bad.row = some cols) (hbadlen : cols.length ≠ m.columns.length) :
    ∀ (pre : List (BaseOperation T)) (h : BatchSendHandle T),
      (∀ op ∈ pre, ∀ c, op.row = some c → c.length = m.columns.length) →
      batchLoop sb m h (pre ++ bad :: ops)
        = (batchLoop sb m h pre).map
            (fun he => (he.1, some (.WrongColumnCount m.columns.length cols.length))) := by
  intro pre
  induction pre with
  | nil =>
    intro h _
    show batchLoop sb m h (bad :: ops) = _
    simp [batchLoop, hbad, hbadlen]
  | cons op pre ih =>
    intro h hvalid
    have hcont : ∀ h' : BatchSendHandle T,
        batchLoop sb m h' (pre ++ bad :: ops)
          = (batchLoop sb m h' pre).map
              (fun he => (he.1, some (.WrongColumnCount m.columns.length cols.length))) :=
      fun h' => ih h' (fun o ho c hc => hvalid o (List.mem_cons_of_mem op ho) c hc)
    show batchLoop sb m h (op :: (pre ++ bad :: ops)) = _
    cases hrow : op.row with
    | some c =>
      have hc : c.length = m.columns.length := hvalid op (List.mem_cons_self op pre) c hrow
      simp only [batchLoop, hrow, hc, ne_eq, not_true_eq_false, if_false]
      cases hp : m.prep_records [op] with
      | none => simp
      | some i =>
        cases he : enqueue sb h i m.key with
        | none => simp [he]
        | some h' => simp [he, hcont h']
    | none =>
      simp only [batchLoop, hrow]
      cases hp : m.prep_records [op] with
      | none => simp
      | some i =>
        cases he : enqueue sb h i m.key with
        | none => simp [he]
        | some h' => simp [he, hcont h']

/-- C2 (amended): `put`, `multi_put`, `update` and `insert_or_update` return
the corresponding `MutatorError` with nothing sent when validation fails
(wrong row arity, wrong key arity, out-of-range column index); `batch_put`
also returns the corresponding error, but the operations ahead of the first
invalid one have already been enqueued and sent when it does. -/
theorem C2_amended {T : Type} [DecidableEq T] [Inhabited T] (sb : T → Nat → Nat)
    (m : Mutator T) :
    (∀ u : Row T, u.length ≠ m.columns.length →
      m.put sb u = some ([], .error (.WrongColumnCount m.columns.length u.length))) ∧
    (∀ (rows : List (Row T)) (e : MutatorError),
      validateRows (T := T) m.columns.length rows = .error e →
      m.multi_put sb rows = some ([], .error e)) ∧
    (∀ (key : Row T) (u : List (Nat × Modification T)),
      m.key ≠ [] → m.key_is_primary = true → key.length ≠ m.key.length →
      m.update sb key u
        = some ([], .error (.WrongKeyColumnCount m.key.length key.length))) ∧
    (∀ (key : Row T) (u : List (Nat × Modification T)) (e : MutatorError),
      m.key ≠ [] → m.key_is_primary = true → key.length = m.key.length →
      buildSet m.columns.length (List.replicate m.columns.length .none) u = .error e →
      m.update sb key u = some ([], .error e)) ∧
    (∀ (ins : Row T) (u : List (Nat × Modification T)),
      m.key ≠ [] → m.key_is_primary = true → ins.length ≠ m.columns.length →
      m.insert_or_update sb ins u
        = some ([], .error (.WrongColumnCount m.columns.length ins.length))) ∧
    (∀ (ins : Row T) (u : List (Nat × Modification T)) (e : MutatorError),
      m.key ≠ [] → m.key_is_primary = true → ins.length = m.columns.length →
      buildSet m.columns.length (List.replicate m.columns.length .none) u = .error e →
      m.insert_or_update sb ins u = some ([], .error e)) ∧
    (∀ (pre : List (BaseOperation T)) (bad : BaseOperation T)
        (ops : List (BaseOperation T)) (cols : Row T),
      bad.row = some cols → cols.length ≠ m.columns.length →
      (∀ op ∈ pre, ∀ c, op.row = some c → c.length = m.columns.length) →
      m.batch_put sb (pre ++ bad :: ops)
        = (batchLoop sb m (BatchSendHandle.new m.nshards) pre).map
            (fun he => (he.1.log,
              Except.error (.WrongColumnCount m.columns.length cols.length)))) := by
  have hprim : ∀ b : Bool, b = true → (b = false) = False := by
    intro b hb; subst hb; simp
  refine ⟨?_, ?_, ?_, ?_, ?_, ?_, ?_⟩
  · intro u hu
    simp [Mutator.put, hu]
  · intro rows e hv
    simp [Mutator.multi_put, hv]
  · intro key u hk hp hkl
    have hke : m.key.isEmpty = false := by simpa [List.isEmpty_iff] using hk
    simp [Mutator.update, hke, hp, hkl]
  · intro key u e hk hp hkl hbs
    have hke : m.key.isEmpty = false := by simpa [List.isEmpty_iff] using hk
    simp [Mutator.update, hke, hp, hkl, hbs]
  · intro ins u hk hp hil
    have hke : m.key.isEmpty = false := by simpa [List.isEmpty_iff] using hk
    simp [Mutator.insert_or_update, hke, hp, hil]
  · intro ins u e hk hp hil hbs
    have hke : m.key.isEmpty = false := by simpa [List.isEmpty_iff] using hk
    simp [Mutator.insert_or_update, hke, hp, hil, hbs]
  · intro pre bad ops cols hbad hbadlen hvalid
    unfold Mutator.batch_put
    rw [batchLoop_error_after_valid sb m bad cols ops hbad hbadlen pre _ hvalid]
    cases batchLoop sb m (BatchSendHandle.new m.nshards) pre with
    | none => rfl
    | some he => rfl

/-- C2 (amended) at concrete inputs: S5 (`put([1,2])` on columns `[a,b,c]`
sends nothing) and the batch prefix behaviour. -/
theorem C2_amended_witness :
    (Mutator.put (T := Nat) (fun x n => x % n) ⟨1, 0, true, [0], [], ["a", "b", "c"]⟩ [1, 2]
      = some ([], .error (.WrongColumnCount 3 2))) ∧
    (Mutator.batch_put (T := Nat) (fun x n => x % n) ⟨1, 0, true, [0], [], ["a", "b", "c"]⟩
        ([.Insert [1, 2, 3]] ++ .Insert [1, 2] :: [])
      = (batchLoop (T := Nat) (fun x n => x % n) ⟨1, 0, true, [0], [], ["a", "b", "c"]⟩
          (BatchSendHandle.new 1) [.Insert [1, 2, 3]]).map
            (fun he => (he.1.log, Except.error (.WrongColumnCount 3 2)))) := by
  have h := C2_amended (T := Nat) (fun x n => x % n) ⟨1, 0, true, [0], [], ["a", "b", "c"]⟩
  refine ⟨h.1 [1, 2] (by decide), ?_⟩
  exact h.2.2.2.2.2.2 [.Insert [1, 2, 3]] (.Insert [1, 2]) [] [1, 2] (by decide) (by decide)
    (by intro op hop c hc
        simp only [List.mem_singleton] at hop
        subst hop
        cases hc
        decide)

/-! ### C5 -/

theorem bump_getD (init : List Nat) (s j : Nat) (hs : s < init.length) :
    (bump init s).getD j 0 = if j = s then init.getD j 0 + 1 else init.getD j 0 := by
  unfold bump
  by_cases hj : j = s
  · subst hj
    rw [List.getD_eq_getElem?_getD, List.getElem?_set_self hs]
    simp
  · rw [List.getD_eq_getElem?_getD, List.getElem?_set_ne (fun hsj => hj hsj.symm),
      if_neg hj, List.getD_eq_getElem?_getD]

theorem bump_length (init : List Nat) (s : Nat) : (bump init s).length = init.length := by
  unfold bump
  exact List.length_set init s _

theorem foldl_bump_getD (cond : Nat → Bool) :
    ∀ (ss : List Nat) (init : List Nat) (j : Nat),
      ss.Nodup → (∀ s ∈ ss, s < init.length) → j < init.length →
      ((ss.foldl (fun acc s => if cond s then acc else bump acc s) init).getD j 0)
        = init.getD j 0 + (if j ∈ ss ∧ cond j = false then 1 else 0) := by
  intro ss
  induction ss with
  | nil => intro init j _ _ _; simp
  | cons s ss ih =>
    intro init j hnd hbound hj
    obtain ⟨hs_notin, hnd'⟩ := List.nodup_cons.mp hnd
    have hslt : s < init.length := hbound s (List.mem_cons_self s ss)
    rw [List.foldl_cons]
    by_cases hc : cond s
    · rw [if_pos hc, ih init j hnd' (fun x hx => hbound x (List.mem_cons_of_mem s hx)) hj]
      congr 1
      by_cases hjs : j = s
      · subst hjs
        simp [hc, hs_notin]
      · simp [List.mem_cons, hjs]
    · rw [if_neg hc]
      have hbound' : ∀ x ∈ ss, x < (bump init s).length := by
        intro x hx; rw [bump_length]; exact hbound x (List.mem_cons_of_mem s hx)
      have hj' : j < (bump init s).length := by rw [bump_length]; exact hj
      rw [ih (bump init s) j hnd' hbound' hj', bump_getD init s j hslt]
      by_cases hjs : j = s
      · subst hjs
        have : j ∉ ss := hs_notin
        simp [this, hc]
      · simp [List.mem_cons, hjs]

theorem flatten_buckets_cons {α : Type} (f : α → Nat) (x : α) (l : List α) :
    ∀ ss : List Nat, ss.Nodup → f x ∈ ss →
      ((ss.map (fun s => (x :: l).filter (fun y => decide (f y = s)))).flatten).Perm
        (x :: (ss.map (fun s => l.filter (fun y => decide (f y = s)))).flatten) := by
  intro ss
  induction ss with
  | nil => intro _ hmem; simp at hmem
  | cons s ss ih =>
    intro hnd hmem
    obtain ⟨hs_notin, hnd'⟩ := List.nodup_cons.mp hnd
    simp only [List.map_cons, List.flatten_cons]
    by_cases hfx : f x = s
    · have hfilter : (x :: l).filter (fun y => decide (f y = s))
          = x :: l.filter (fun y => decide (f y = s)) := by
        simp [List.filter_cons, hfx]
      rw [hfilter]
      have hnot : f x ∉ ss := by rw [hfx]; exact hs_notin
      have hrest : (ss.map (fun s => (x :: l).filter (fun y => decide (f y = s))))
          = ss.map (fun s => l.filter (fun y => decide (f y = s))) := by
        apply List.map_eq_map_iff.mpr
        intro u hu
        have : f x ≠ u := fun h => hnot (h ▸ hu)
        simp [List.filter_cons, this]
      rw [hrest]
      rfl
    · have hfilter : (x :: l).filter (fun y => decide (f y = s))
          = l.filter (fun y => decide (f y = s)) := by
        simp [List.filter_cons, hfx]
      rw [hfilter]
      have hmem' : f x ∈ ss := by
        rcases List.mem_cons.mp hmem with h | h
        · exact absurd h hfx
        · exact h
      exact ((ih hnd' hmem').append_left _).trans List.perm_middle

theorem flatten_buckets_perm {α : Type} (f : α → Nat) (n : Nat) :
    ∀ l : List α, (∀ x ∈ l, f x < n) →
      (((List.range n).map (fun s => l.filter (fun y => decide (f y = s)))).flatten).Perm
        l := by
  intro l
  induction l with
  | nil => intro _; simp
  | cons x l ih =>
    intro hb
    have hx : f x ∈ List.range n := List.mem_range.mpr (hb x (List.mem_cons_self x l))
    have h1 := flatten_buckets_cons f x l (List.range n) (List.nodup_range n) hx
    exact h1.trans ((ih (fun y hy => hb y (List.mem_cons_of_mem x hy))).cons x)

/-- C5: a batch enqueued on a multi-shard handle with a single-column key.
The operations are partitioned by `shard_by` of the row's key-column value
(`Insert`/`InsertOrUpdate`) or the operation key's head (`Delete`/`Update`);
the concatenation of the per-shard sub-batches is a permutation of the
batch; exactly one `Input` carrying the original link is written per
non-empty bucket, and exactly those shards' sent counters are bumped. -/
theorem C5_enqueue_shards {T : Type} [DecidableEq T] [Inhabited T] (sb : T → Nat → Nat)
    (h : BatchSendHandle T) (i : Input T) (kc : Nat)
    (hn : 2 ≤ h.nshards) (hsb : ∀ v, sb v h.nshards < h.nshards)
    (hlen : h.sent.length = h.nshards) :
    (enqueue sb h i [kc]
      = some { h with
          sent := (List.range h.nshards).foldl
            (fun acc s => if (shardBucket sb kc h.nshards i.data s).isEmpty then acc
                          else bump acc s) h.sent,
          log := h.log ++ (List.range h.nshards).filterMap (fun s =>
            if (shardBucket sb kc h.nshards i.data s).isEmpty then Option.none
            else some (s, { link := i.link, data := shardBucket sb kc h.nshards i.data s })) }) ∧
    (∀ op ∈ i.data, op ∈ shardBucket sb kc h.nshards i.data (sb (opKeyVal kc op) h.nshards)) ∧
    (∀ s : Nat, ∀ op ∈ shardBucket sb kc h.nshards i.data s,
      sb (opKeyVal kc op) h.nshards = s) ∧
    (∀ r : Row T, opKeyVal (T := T) kc (.Insert r) = r.getD kc default) ∧
    (∀ (r : Row T) (u : List (Modification T)),
      opKeyVal kc (.InsertOrUpdate r u) = r.getD kc default) ∧
    (∀ k : Row T, opKeyVal (T := T) kc (.Delete k) = k.getD 0 default) ∧
    (∀ (k : Row T) (u : List (Modification T)), opKeyVal kc (.Update k u) = k.getD 0 default) ∧
    (((List.range h.nshards).map (shardBucket sb kc h.nshards i.data)).flatten).Perm i.data ∧
    (∀ h' : BatchSendHandle T, enqueue sb h i [kc] = some h' →
      ∀ s, s < h.nshards →
        ((shardBucket sb kc h.nshards i.data s).isEmpty = false →
          h'.sent.getD s 0 = h.sent.getD s 0 + 1) ∧
        ((shardBucket sb kc h.nshards i.data s).isEmpty = true →
          h'.sent.getD s 0 = h.sent.getD s 0)) := by
  have hne1 : ¬(h.nshards = 1) := by omega
  have henq : enqueue sb h i [kc]
      = some { h with
          sent := (List.range h.nshards).foldl
            (fun acc s => if (shardBucket sb kc h.nshards i.data s).isEmpty then acc
                          else bump acc s) h.sent,
          log := h.log ++ (List.range h.nshards).filterMap (fun s =>
            if (shardBucket sb kc h.nshards i.data s).isEmpty then Option.none
            else some (s, { link := i.link, data := shardBucket sb kc h.nshards i.data s })) } := by
    unfold enqueue
    rw [if_neg hne1]
  refine ⟨henq, ?_, ?_, fun r => rfl, fun r u => rfl, fun k => rfl, fun k u => rfl, ?_, ?_⟩
  · intro op hop
    unfold shardBucket
    exact List.mem_filter.mpr ⟨hop, by simp⟩
  · intro s op hop
    have := (List.mem_filter.mp hop).2
    simpa using this
  · exact flatten_buckets_perm (fun r => sb (opKeyVal kc r) h.nshards) h.nshards i.data
      (fun x _ => hsb (opKeyVal kc x))
  · intro h' hh' s hs
    rw [henq] at hh'
    have hh'' := Option.some.inj hh'
    subst hh''
    have hfold := foldl_bump_getD (fun s => (shardBucket sb kc h.nshards i.data s).isEmpty)
      (List.range h.nshards) h.sent s (List.nodup_range h.nshards)
      (fun x hx => by rw [hlen]; exact List.mem_range.mp hx)
      (by rw [hlen]; exact hs)
    constructor
    · intro hne
      show (List.foldl _ h.sent (List.range h.nshards)).getD s 0 = _
      rw [hfold]
      simp [List.mem_range.mpr hs, hne]
    · intro hemp
      show (List.foldl _ h.sent (List.range h.nshards)).getD s 0 = _
      rw [hfold]
      simp [hemp]

/-- C5 at a concrete input: the spec's S4 fan-out (4 shards, key column 0,
`shard_by(x, 4) = x % 4`, every row sharding to 1, one frame written). -/
theorem C5_enqueue_shards_witness :
    enqueue (T := Nat) (fun x n => x % n) (BatchSendHandle.new 4)
      ⟨(9, 9), [.Insert [1, 0], .Insert [5, 0], .Insert [1, 7], .Insert [9, 0]]⟩ [0]
      = some ⟨4, [0, 1, 0, 0],
          [(1, ⟨(9, 9), [.Insert [1, 0], .Insert [5, 0], .Insert [1, 7], .Insert [9, 0]]⟩)]⟩ := by
  have h := C5_enqueue_shards (T := Nat) (fun x n => x % n) (BatchSendHandle.new 4)
    ⟨(9, 9), [.Insert [1, 0], .Insert [5, 0], .Insert [1, 7], .Insert [9, 0]]⟩ 0
    (by decide) (fun v => Nat.mod_lt v (by decide)) (by decide)
  rw [h.1]
  decide

/-! ### C4: the in-place dropped-column injection -/

theorem oswap_length {T : Type} (l : List (Option T)) (a b : Nat) :
    (oswap l a b).length = l.length := by
  simp [oswap]

theorem oswap_getD_right {T : Type} (l : List (Option T)) (a b : Nat) (hb : b < l.length) :
    (oswap l a b).getD b none = l.getD a none := by
  unfold oswap
  rw [List.getD_eq_getElem?_getD,
    List.getElem?_set_self (by rw [List.length_set]; exact hb)]
  rfl

theorem oswap_getD_ne {T : Type} (l : List (Option T)) (a b p : Nat)
    (hpa : p ≠ a) (hpb : p ≠ b) :
    (oswap l a b).getD p none = l.getD p none := by
  unfold oswap
  rw [List.getD_eq_getElem?_getD, List.getElem?_set_ne (Ne.symm hpb),
    List.getElem?_set_ne (Ne.symm hpa), ← List.getD_eq_getElem?_getD]

/-- What one run of the shift loop does: it ends with the free cursor at
`next_insert` (`d` here) and the unmoved cursor stepped down by the number
of swaps; positions at or below the new unmoved cursor and above the entry
free cursor are untouched, and each slot in `(d, free]` received the original
element that sat `free - p` places below the entry unmoved cursor. -/
theorem shiftWhile_spec {T : Type} (d : Nat) :
    ∀ (free : Nat) (L : Nat) (r : List (Option T)),
      d ≤ free → free < r.length → free - d ≤ L + 1 → (d < free → L < free) →
      (shiftWhile free r L d).2.1 = d ∧
      (shiftWhile free r L d).2.2 = L - (free - d) ∧
      (shiftWhile free r L d).1.length = r.length ∧
      (∀ p, p + (free - d) ≤ L → (shiftWhile free r L d).1.getD p none = r.getD p none) ∧
      (∀ p, d < p → p ≤ free →
        (shiftWhile free r L d).1.getD p none = r.getD (L - (free - p)) none) ∧
      (∀ p, free < p → (shiftWhile free r L d).1.getD p none = r.getD p none) := by
  intro free
  induction free using Nat.strong_induction_on with
  | _ free ih =>
    intro L r hdf hfr hfl hLf
    by_cases hcond : d < free
    · have hLfree : L < free := hLf hcond
      obtain ⟨f, rfl⟩ : ∃ f, free = f + 1 := ⟨free - 1, by omega⟩
      by_cases hL0 : L = 0
      · subst hL0
        have hfd : f + 1 = d + 1 := by omega
        have hdone : shiftWhile (f + 1) r 0 d = (oswap r 0 (f + 1), f, 0) := by
          rw [shiftWhile]
          simp [hcond]
        rw [hdone]
        refine ⟨by show f = d; omega, by show 0 = 0 - (f + 1 - d); omega,
          oswap_length r 0 (f + 1), ?_, ?_, ?_⟩
        · intro p hp
          exact absurd hp (by omega)
        · intro p hp1 hp2
          have hpf : p = f + 1 := by omega
          rw [hpf, oswap_getD_right r 0 (f + 1) hfr]
          have h0 : 0 - (f + 1 - (f + 1)) = 0 := by omega
          rw [h0]
        · intro p hp
          exact oswap_getD_ne r 0 (f + 1) p (by omega) (by omega)
      · have hstep : shiftWhile (f + 1) r L d
            = shiftWhile f (oswap r L (f + 1)) (L - 1) d := by
          rw [shiftWhile]
          simp [hcond, hL0]
        have hrec := ih f (by omega) (L - 1) (oswap r L (f + 1))
          (by omega) (by rw [oswap_length]; omega) (by omega) (by omega)
        obtain ⟨h1, h2, h3, h4, h5, h6⟩ := hrec
        rw [hstep]
        refine ⟨h1, by rw [h2]; omega, by rw [h3, oswap_length], ?_, ?_, ?_⟩
        · intro p hp
          have hple : p + (f - d) ≤ L - 1 := by omega
          rw [h4 p hple]
          exact oswap_getD_ne r L (f + 1) p (by omega) (by omega)
        · intro p hp1 hp2
          by_cases hpf : p = f + 1
          · rw [hpf, h6 (f + 1) (by omega), oswap_getD_right r L (f + 1) hfr]
            have he : L - (f + 1 - (f + 1)) = L := by omega
            rw [he]
          · have hple : p ≤ f := by omega
            rw [h5 p hp1 hple]
            have hq : (L - 1) - (f - p) = L - (f + 1 - p) := by omega
            rw [oswap_getD_ne r L (f + 1) ((L - 1) - (f - p)) (by omega) (by omega), hq]
        · intro p hp
          rw [h6 p (by omega)]
          exact oswap_getD_ne r L (f + 1) p (by omega) (by omega)
    · have hdone : shiftWhile free r L d = (r, free, L) := by
        cases free with
        | zero => rw [shiftWhile]
        | succ f =>
          rw [shiftWhile]
          simp [hcond]
      rw [hdone]
      refine ⟨by show free = d; omega, by show L = L - (free - d); omega, rfl,
        fun p _ => rfl, ?_, fun p _ => rfl⟩
      intro p hp1 hp2
      omega

theorem desc_length_le : ∀ (l : List Nat) (b : Nat),
    l.Pairwise (fun x y => y < x) → (∀ x ∈ l, x < b) → l.length ≤ b := by
  intro l
  induction l with
  | nil => intro b _ _; simp
  | cons x xs ih =>
    intro b hp hb
    have hx : x < b := hb x (List.mem_cons_self x xs)
    have hxs := List.pairwise_cons.mp hp
    have hlen := ih x hxs.2 (fun y hy => hxs.1 y hy)
    simp only [List.length_cons]
    omega

theorem desc_bounded_length : ∀ (l : List Nat) (a b : Nat),
    l.Pairwise (fun x y => y < x) → (∀ x ∈ l, a < x ∧ x < b) → l.length ≤ b - a - 1 := by
  intro l
  induction l with
  | nil => intro a b _ _; simp
  | cons x xs ih =>
    intro a b hp hb
    obtain ⟨hx1, hx2⟩ := hb x (List.mem_cons_self x xs)
    have hxs := List.pairwise_cons.mp hp
    have hlen := ih a x hxs.2
      (fun y hy => ⟨(hb y (List.mem_cons_of_mem x hy)).1, hxs.1 y hy⟩)
    simp only [List.length_cons]
    omega

/-- Among strictly-descending dropped positions all below `d` and all
different from `p < d`, the ones below `p` are all but at most `d - p - 1`. -/
theorem countP_lt_ge {T : Type} (rest : List (Nat × T)) (d p : Nat)
    (hsort : rest.Pairwise (fun a b => b.1 < a.1))
    (hlt : ∀ e ∈ rest, e.1 < d) (hne : ∀ e ∈ rest, e.1 ≠ p) (hpd : p < d) :
    rest.length ≤ rest.countP (fun e => decide (e.1 < p)) + (d - p - 1) := by
  have hsplit := List.length_eq_length_filter_add (l := rest) (fun e => decide (e.1 < p))
  have hfl : (rest.filter (fun e => !(decide (e.1 < p)))).length ≤ d - p - 1 := by
    have hmap : ((rest.filter (fun e => !(decide (e.1 < p)))).map Prod.fst).Pairwise
        (fun x y => y < x) :=
      List.Pairwise.map Prod.fst (fun a b h => h) (hsort.filter _)
    have hbd : ∀ x ∈ (rest.filter (fun e => !(decide (e.1 < p)))).map Prod.fst,
        p < x ∧ x < d := by
      intro x hx
      obtain ⟨e, he, rfl⟩ := List.mem_map.mp hx
      have hmem := List.mem_of_mem_filter he
      have hp1 := List.of_mem_filter he
      simp only [Bool.not_eq_true', decide_eq_false_iff_not, Nat.not_lt] at hp1
      exact ⟨lt_of_le_of_ne hp1 (fun h => hne e hmem h.symm), hlt e hmem⟩
    have := desc_bounded_length _ p d hmap hbd
    simpa using this
  rw [List.countP_eq_length_filter]
  omega

/-- What the outer loop does, assuming the remaining dropped positions are
strictly descending, below `bound`, and the unmoved cursor is consistent:
positions at or above `bound` keep their values, each remaining dropped
position receives its default, and every other position below `bound` ends
with the array's original element at the rank obtained by discounting the
dropped positions below it. -/
theorem injectLoop_spec {T : Type} :
    ∀ (rest : List (Nat × T)) (bound LU : Nat) (r : List (Option T)),
      rest.Pairwise (fun a b => b.1 < a.1) →
      (∀ e ∈ rest, e.1 < bound) →
      bound ≤ r.length →
      LU = bound - rest.length - 1 →
      (injectLoop r bound LU rest).length = r.length ∧
      (∀ p, bound ≤ p → (injectLoop r bound LU rest).getD p none = r.getD p none) ∧
      (∀ e ∈ rest, (injectLoop r bound LU rest).getD e.1 none = some e.2) ∧
      (∀ p, p < bound → (∀ e ∈ rest, e.1 ≠ p) →
        (injectLoop r bound LU rest).getD p none
          = r.getD (p - rest.countP (fun e => decide (e.1 < p))) none) := by
  intro rest
  induction rest with
  | nil =>
    intro bound LU r _ _ _ _
    refine ⟨rfl, fun p _ => rfl, by simp, ?_⟩
    intro p _ _
    simp only [List.countP_nil, Nat.sub_zero]
    rfl
  | cons e rest ih =>
    obtain ⟨d, v⟩ := e
    intro bound LU r hsort hlt hbr hLU
    have hsort' := (List.pairwise_cons.mp hsort).2
    have hdrest : ∀ x ∈ rest, x.1 < d := (List.pairwise_cons.mp hsort).1
    have hdb : d < bound := hlt (d, v) (List.mem_cons_self _ _)
    have hrl : rest.length ≤ d := by
      have hmap := desc_length_le (rest.map Prod.fst) d
        (List.Pairwise.map Prod.fst (fun a b h => h) hsort')
        (by intro x hx
            obtain ⟨e', he', rfl⟩ := List.mem_map.mp hx
            exact hdrest e' he')
      simpa using hmap
    have hLUval : LU = bound - rest.length - 2 := by
      rw [hLU]; simp only [List.length_cons]; omega
    -- the shift loop
    have hsw := shiftWhile_spec d (bound - 1) LU r
      (by omega) (by omega) (by omega) (by omega)
    obtain ⟨hw1, hw2, hw3, hw4, hw5, hw6⟩ := hsw
    have hunfold : injectLoop r bound LU ((d, v) :: rest)
        = injectLoop ((shiftWhile (bound - 1) r LU d).1.set d (some v))
            (shiftWhile (bound - 1) r LU d).2.1 (shiftWhile (bound - 1) r LU d).2.2
            rest := by
      rw [injectLoop]
    rw [hunfold, hw1, hw2]
    set r1 := (shiftWhile (bound - 1) r LU d).1 with hr1
    set r2 := r1.set d (some v) with hr2
    have hr2len : r2.length = r.length := by
      rw [hr2, List.length_set, hw3]
    have hLU2 : LU - (bound - 1 - d) = d - rest.length - 1 := by omega
    rw [hLU2]
    have hrec := ih d (d - rest.length - 1) r2 hsort' hdrest
      (by rw [hr2len]; omega) rfl
    obtain ⟨hi1, hi2, hi3, hi4⟩ := hrec
    have hdr : d < r1.length := by rw [hw3]; omega
    have hr2d : r2.getD d none = some v := by
      rw [hr2, List.getD_eq_getElem?_getD, List.getElem?_set_self hdr]
      rfl
    have hr2ne : ∀ p, p ≠ d → r2.getD p none = r1.getD p none := by
      intro p hp
      rw [hr2, List.getD_eq_getElem?_getD, List.getElem?_set_ne (Ne.symm hp),
        ← List.getD_eq_getElem?_getD]
    refine ⟨by rw [hi1, hr2len], ?_, ?_, ?_⟩
    · -- positions at or above bound untouched
      intro p hp
      rw [hi2 p (by omega), hr2ne p (by omega), hw6 p (by omega)]
    · -- each dropped position holds its default
      intro e he
      rcases List.mem_cons.mp he with rfl | he'
      · show (injectLoop r2 d (d - rest.length - 1) rest).getD d none = some v
        rw [hi2 d (le_refl d)]
        exact hr2d
      · exact hi3 e he'
    · -- other positions below bound: original element at discounted rank
      intro p hp hne
      have hnd : ∀ e ∈ rest, e.1 ≠ p := fun e he => hne e (List.mem_cons_of_mem _ he)
      have hnp : d ≠ p := hne (d, v) (List.mem_cons_self _ _)
      by_cases hpd : p < d
      · -- untouched by this step; recursion places the element
        rw [hi4 p hpd hnd]
        have hcnt := countP_lt_ge rest d p hsort' hdrest hnd hpd
        have hcntle : rest.countP (fun e => decide (e.1 < p)) ≤ p := by
          rw [List.countP_eq_length_filter]
          have hmap := desc_length_le
            ((rest.filter (fun e => decide (e.1 < p))).map Prod.fst) p
            (List.Pairwise.map Prod.fst (fun a b h => h) (hsort'.filter _))
            (by intro x hx
                obtain ⟨e', he', rfl⟩ := List.mem_map.mp hx
                have hf := List.of_mem_filter he'
                simpa using hf)
          simpa using hmap
        have hq : p - rest.countP (fun e => decide (e.1 < p)) ≤ d - rest.length - 1 := by
          omega
        have hqne : p - rest.countP (fun e => decide (e.1 < p)) ≠ d := by omega
        have hwbound : p - rest.countP (fun e => decide (e.1 < p)) + ((bound - 1) - d) ≤ LU := by
          rw [hLUval]
          omega
        rw [hr2ne _ hqne, hw4 _ hwbound]
        have hcc : ((d, v) :: rest).countP (fun e => decide (e.1 < p))
            = rest.countP (fun e => decide (e.1 < p)) := by
          rw [List.countP_cons]
          have hnlt : ¬ d < p := by omega
          simp [hnlt]
        rw [hcc]
      · -- placed by this step's shift loop
        have hdp : d < p := lt_of_le_of_ne (Nat.not_lt.mp hpd) hnp
        rw [hi2 p (by omega), hr2ne p (by omega), hw5 p hdp (by omega)]
        have hall : ((d, v) :: rest).countP (fun e => decide (e.1 < p))
            = ((d, v) :: rest).length := by
          apply List.countP_eq_length.mpr
          intro a ha
          rcases List.mem_cons.mp ha with rfl | ha'
          · simp [hdp]
          · simp [lt_trans (hdrest a ha') hdp]
        rw [hall]
        have hq : LU - (bound - 1 - p) = p - ((d, v) :: rest).length := by
          simp only [List.length_cons]
          omega
        rw [hq]

/-- C4: the inject-dropped-columns round-trip.  For a row of arity `N - k`
and a dropped-column map of `k` distinct positions in `[0, N)` (ascending, as
a `VecMap` iterates), the reshaped row has arity `N`, holds each dropped
column's default at its declared position, and holds the original values at
the remaining positions in their original relative order — position `p` gets
the original value of rank `p` minus the number of dropped positions below
`p`, a strictly monotone rank.  Only `Insert` and `InsertOrUpdate` are
reshaped. -/
theorem C4_inject {T : Type} [Inhabited T] (dropped : List (Nat × T)) (row : Row T)
    (hsort : dropped.Pairwise (fun a b => a.1 < b.1))
    (hlt : ∀ e ∈ dropped, e.1 < row.length + dropped.length) :
    (injectRow dropped row).length = row.length + dropped.length ∧
    (∀ e ∈ dropped, (injectRow dropped row).getD e.1 none = some e.2) ∧
    (∀ p, p < row.length + dropped.length → (∀ e ∈ dropped, e.1 ≠ p) →
      p - dropped.countP (fun e => decide (e.1 < p)) < row.length ∧
      (injectRow dropped row).getD p none
        = some (row.getD (p - dropped.countP (fun e => decide (e.1 < p))) default)) ∧
    (∀ u : List (Modification T),
      injectOps dropped [BaseOperation.Insert row]
        = some [BaseOperation.Insert (injectRowD dropped row)] ∧
      injectOps dropped [BaseOperation.InsertOrUpdate row u]
        = some [BaseOperation.InsertOrUpdate (injectRowD dropped row) u]) := by
  by_cases hk : dropped.length = 0
  · have hnil : dropped = [] := List.length_eq_zero.mp hk
    subst hnil
    refine ⟨by simp [injectRow], by simp, ?_, fun u => ⟨rfl, rfl⟩⟩
    intro p hp _
    simp only [List.length_nil, Nat.add_zero] at hp
    refine ⟨by simpa using hp, ?_⟩
    have hr : injectRow ([] : List (Nat × T)) row = row.map some := by
      rw [injectRow]
      simp
    show (injectRow [] row).getD p none = _
    rw [hr]
    simp only [List.countP_nil, Nat.sub_zero]
    rw [List.getD_eq_getElem?_getD, List.getElem?_map, List.getElem?_eq_getElem hp]
    simp [List.getD_eq_getElem?_getD, List.getElem?_eq_getElem hp]
  · have hrow : injectRow dropped row
        = injectLoop (row.map some ++ List.replicate dropped.length none)
            (row.length + dropped.length) (row.length - 1) dropped.reverse := by
      rw [injectRow, if_neg hk]
    have hr0len : (row.map some ++ List.replicate dropped.length none).length
        = row.length + dropped.length := by simp
    have hspec := injectLoop_spec dropped.reverse (row.length + dropped.length)
      (row.length - 1) (row.map some ++ List.replicate dropped.length none)
      (List.pairwise_reverse.mpr hsort)
      (by intro e he; exact hlt e (List.mem_reverse.mp he))
      (le_of_eq hr0len.symm)
      (by rw [List.length_reverse]; omega)
    obtain ⟨h1, h2, h3, h4⟩ := hspec
    refine ⟨?_, ?_, ?_, fun u => ⟨rfl, rfl⟩⟩
    · rw [hrow, h1, hr0len]
    · intro e he
      rw [hrow]
      exact h3 e (List.mem_reverse.mpr he)
    · intro p hp hne
      have hneR : ∀ e ∈ dropped.reverse, e.1 ≠ p :=
        fun e he => hne e (List.mem_reverse.mp he)
      have hcrev : dropped.reverse.countP (fun e => decide (e.1 < p))
          = dropped.countP (fun e => decide (e.1 < p)) := List.countP_reverse _ _
      have hcnt := countP_lt_ge dropped.reverse (row.length + dropped.length) p
        (List.pairwise_reverse.mpr hsort)
        (by intro e he; exact hlt e (List.mem_reverse.mp he))
        hneR hp
      have hcle : dropped.reverse.countP (fun e => decide (e.1 < p)) ≤ p := by
        rw [List.countP_eq_length_filter]
        have hmap := desc_length_le
          ((dropped.reverse.filter (fun e => decide (e.1 < p))).map Prod.fst) p
          (List.Pairwise.map Prod.fst (fun a b h => h)
            ((List.pairwise_reverse.mpr hsort).filter _))
          (by intro x hx
              obtain ⟨e', he', rfl⟩ := List.mem_map.mp hx
              have hf := List.of_mem_filter he'
              simpa using hf)
        simpa using hmap
      have hqlt : p - dropped.countP (fun e => decide (e.1 < p)) < row.length := by
        rw [List.length_reverse] at hcnt
        rw [hcrev] at hcnt hcle
        omega
      refine ⟨hqlt, ?_⟩
      rw [hrow, h4 p hp hneR, hcrev]
      have hq' : p - dropped.countP (fun e => decide (e.1 < p)) < (row.map some).length := by
        simpa using hqlt
      rw [List.getD_append _ _ _ _ hq']
      rw [List.getD_eq_getElem?_getD, List.getElem?_map, List.getElem?_eq_getElem hqlt]
      simp [List.getD_eq_getElem?_getD, List.getElem?_eq_getElem hqlt]

/-- C4 at a concrete input: the spec's S3 scenario (`99` standing in for
NULL). -/
theorem C4_inject_witness :
    (injectRowD (T := Nat) [(1, 99), (3, 0)] [10, 20] = [10, 99, 20, 0]) ∧
    (injectRow (T := Nat) [(1, 99), (3, 0)] [10, 20]).getD 1 none = some 99 ∧
    (injectRow (T := Nat) [(1, 99), (3, 0)] [10, 20]).getD 2 none = some 20 := by
  have h := C4_inject (T := Nat) [(1, 99), (3, 0)] [10, 20]
    (by decide) (by decide)
  refine ⟨by decide, h.2.1 (1, 99) (by decide), ?_⟩
  have h2 := (h.2.2.1 2 (by decide) (by decide)).2
  simpa using h2

end Noria
